import Mathlib

/-!
Verification of the mezzenger message-passing library (shallow embedding).

The Rust sources are embedded as executable Lean definitions:

* `mezzenger-common/src/sync.rs` and `rc.rs` (textually identical logic, one
  with a mutex, one with RefCell): shared receive state, the waker registry,
  the receive-future state machine and its drop handler.
* `mezzenger-loopback/src/sync.rs` and `mezzenger-dummy/src/sync.rs`: the
  in-memory send paths.
* `mezzenger-tcp/src/lib.rs`: the length-prefixed framer (send and receive).
* `mezzenger-utils/src/numbered.rs` and `latest_only.rs`: the decorators.
* `mezzenger/src/lib.rs`: the stream facade over a receiver.

Waker cells (`Arc<Mutex<ReceiveWaker>>` resp. `Rc<RefCell<ReceiveWaker>>`) are
modelled by an arena (`WakerHeap`): a list of pairs `(id, woken)`.  A weak
reference is an id; a dead cell is an id absent from the arena; `wake_by_ref`
is observable as the returned id of the cell that was triggered.
-/

namespace Mezzenger

/-- The error type `mezzenger::Error` from `mezzenger/src/lib.rs`. -/
inductive MError (E : Type) where
  | closed
  | other (e : E)

/-- Arena of waker cells: `(id, woken)` pairs.  Presence means the cell is
alive (some receive future strongly owns it). -/
abbrev WakerHeap := List (Nat × Bool)

def heapLookup : WakerHeap → Nat → Option Bool
  | [], _ => none
  | (j, w) :: rest, id => if j = id then some w else heapLookup rest id

/-- Rust `Weak::upgrade` succeeds exactly when the cell is still in the arena. -/
def heapLive (h : WakerHeap) (id : Nat) : Bool :=
  (heapLookup h id).isSome

/-- Set the `woken` flag of cell `id` to `true` (`waker.woken = true`). -/
def heapSetWoken : WakerHeap → Nat → WakerHeap
  | [], _ => []
  | (j, w) :: rest, id =>
    (j, if j = id then true else w) :: heapSetWoken rest id

/-- Clear the `woken` flag of cell `id` (`waker.woken = false` on re-poll). -/
def heapClearWoken : WakerHeap → Nat → WakerHeap
  | [], _ => []
  | (j, w) :: rest, id =>
    (j, if j = id then false else w) :: heapClearWoken rest id

/-- Dropping the strong reference removes the cell from the arena. -/
def heapErase : WakerHeap → Nat → WakerHeap
  | [], _ => []
  | (j, w) :: rest, id =>
    if j = id then heapErase rest id else (j, w) :: heapErase rest id

/-- A fresh cell starts with `woken = false` (`ReceiveWaker::new`). -/
def heapInsert (h : WakerHeap) (id : Nat) : WakerHeap :=
  (id, false) :: h

/-- Struct `State<Message, Error>` from `mezzenger-common` (`sync.rs` lines 16-20,
`rc.rs` lines 15-19).  The `VecDeque` front is the list head: `push_front` is
cons, `pop_front` is head, `pop_back` takes the last element. -/
structure CState (M E : Type) where
  queue : List (Except E M)
  wakers : List Nat
  closed : Bool

def CState.new (M E : Type) : CState M E :=
  { queue := [], wakers := [], closed := false }

/-- Method `State::message`: `self.queue.push_front(Ok(message))`. -/
def stateMessage (s : CState M E) (m : M) : CState M E :=
  { s with queue := Except.ok m :: s.queue }

/-- Method `State::error`: `self.queue.push_front(Err(error))`. -/
def stateError (s : CState M E) (e : E) : CState M E :=
  { s with queue := Except.error e :: s.queue }

/-- Method `State::wake_next` (`sync.rs` lines 43-52): repeatedly `pop_front` the
waker deque; at the first still-live cell set `woken = true`, wake it and
stop.  The result is the remaining deque, the updated arena, and the id of
the cell that was triggered (if any). -/
def wakeNext (wakers : List Nat) (h : WakerHeap) : List Nat × WakerHeap × Option Nat :=
  match wakers with
  | [] => ([], h, none)
  | id :: rest =>
    if heapLive h id then (rest, heapSetWoken h id, some id)
    else wakeNext rest h

def stateWakeNext (s : CState M E) (h : WakerHeap) : CState M E × WakerHeap × Option Nat :=
  let r := wakeNext s.wakers h
  ({ s with wakers := r.1 }, r.2.1, r.2.2)

/-- Method `State::close`: set the flag, then wake one waiter. -/
def stateClose (s : CState M E) (h : WakerHeap) : CState M E × WakerHeap × Option Nat :=
  stateWakeNext { s with closed := true } h

/-- The `Receive` future (`sync.rs` lines 69-73): `terminated` flag plus the
strongly-owned waker cell (by id). -/
structure RecvFut where
  terminated : Bool
  waker : Option Nat
deriving DecidableEq, Repr

def RecvFut.new : RecvFut := { terminated := false, waker := none }

/-- Result of polling a receive future. -/
inductive RPoll (M E : Type) where
  | pending
  | ready (r : Except (MError E) M)

/-- Method `Receive::poll` (`sync.rs` lines 122-154, `rc.rs` lines 186-218).
`fresh` is the id used for a newly allocated waker cell. -/
def pollReceive (fresh : Nat) (f : RecvFut) (s : CState M E) (h : WakerHeap) :
    RPoll M E × RecvFut × CState M E × WakerHeap :=
  if f.terminated then (RPoll.pending, f, s, h)
  else
    match s.queue.getLast? with
    | some item =>
      -- pop_back succeeded: terminate, drop the owned cell, return the item
      (RPoll.ready (item.mapError MError.other),
       { terminated := true, waker := none },
       { s with queue := s.queue.dropLast },
       match f.waker with
       | some id => heapErase h id
       | none => h)
    | none =>
      if s.closed then
        -- note: the owned waker cell is kept (self.waker is not cleared here)
        (RPoll.ready (Except.error MError.closed),
         { f with terminated := true }, s, h)
      else
        match f.waker with
        | some id =>
          -- existing cell: update handle, clear woken, re-register at the front
          (RPoll.pending, f, { s with wakers := id :: s.wakers }, heapClearWoken h id)
        | none =>
          (RPoll.pending, { f with waker := some fresh },
           { s with wakers := fresh :: s.wakers }, heapInsert h fresh)

/-- The `impl Drop for Receive` (`sync.rs` lines 88-95, `rc.rs` lines 152-159):
take the owned cell; if it was woken, wake the next waiter.  The owned cell
dies (its strong reference is dropped) before `wake_next` runs. -/
def dropReceive (f : RecvFut) (s : CState M E) (h : WakerHeap) :
    CState M E × WakerHeap × Option Nat :=
  match f.waker with
  | none => (s, h, none)
  | some id =>
    let wasWoken := (heapLookup h id).getD false
    let hDead := heapErase h id
    if wasWoken then stateWakeNext s hDead else (s, hDead, none)

/-- First still-live entry of a waker deque, in deque order (front first). -/
def firstLive (h : WakerHeap) : List Nat → Option Nat
  | [] => none
  | id :: rest => if heapLive h id then some id else firstLive h rest

theorem wakeNext_fires_firstLive (w : List Nat) (h : WakerHeap) :
    (wakeNext w h).2.2 = firstLive h w := by
  induction w with
  | nil => rfl
  | cons id rest ih =>
    simp only [wakeNext, firstLive]
    split <;> simp [ih]

theorem heapLookup_setWoken (h : WakerHeap) (id j : Nat) :
    heapLookup (heapSetWoken h id) j =
      (heapLookup h j).map (fun w => if j = id then true else w) := by
  induction h with
  | nil => rfl
  | cons p rest ih =>
    obtain ⟨k, w⟩ := p
    simp only [heapSetWoken, heapLookup]
    by_cases hk : k = j
    · subst hk
      simp only [if_pos rfl]
      by_cases hid : k = id <;> simp [hid]
    · simp [hk, ih]

theorem wakeNext_marks_woken (w : List Nat) (h : WakerHeap) (j : Nat)
    (hf : (wakeNext w h).2.2 = some j) :
    heapLookup (wakeNext w h).2.1 j = some true := by
  induction w with
  | nil => simp [wakeNext] at hf
  | cons id rest ih =>
    simp only [wakeNext] at hf ⊢
    by_cases hl : heapLive h id
    · simp only [if_pos hl] at hf ⊢
      obtain rfl : id = j := by simpa using hf
      simp only [heapLookup_setWoken]
      unfold heapLive at hl
      obtain ⟨w, hw⟩ := Option.isSome_iff_exists.mp (by simpa using hl)
      simp [hw]
    · simp only [if_neg hl] at hf ⊢
      exact ih hf

/-- File `mezzenger-loopback/src/sync.rs` lines 43-55 (`Sender::send`), the closure
the common `Send` future runs on its first poll: if `is_closed` return
`Err(Closed)`, otherwise `state.message(message)` and `Ok(())`.  It does not
touch the waker registry or any waker cell. -/
def loopbackSend (s : CState M E) (m : M) : CState M E × Except (MError E) Unit :=
  if s.closed then (s, Except.error MError.closed)
  else (stateMessage s m, Except.ok ())

/-- File `mezzenger-common/src/lib.rs` lines 62-68: polling the `Send` future runs
the sender closure once (first component is the remaining `message` slot). -/
def loopbackSendPoll (msg : Option M) (s : CState M E) :
    Option M × CState M E × RPoll Unit E :=
  match msg with
  | some m =>
    let r := loopbackSend s m
    (none, r.1, RPoll.ready r.2)
  | none => (msg, s, RPoll.pending)

/-- Struct `State<T>` of `mezzenger-dummy/src/sync.rs` lines 61-65. -/
structure DState (M : Type) where
  buffer : List M
  wakers : List Nat
  closed : Bool

/-- Method `Send::poll` of `mezzenger-dummy/src/sync.rs` lines 150-172: if closed,
`Err(Closed)`; otherwise `push_front` the message, then `wake_next` (the
dummy transport has its own `wake_next`, lines 32-41, with the same logic as
the common one), then `Ok(())`. -/
def dummySendPoll (msg : Option M) (s : DState M) (h : WakerHeap) :
    Option M × DState M × WakerHeap × Option Nat × RPoll Unit Empty :=
  match msg with
  | some m =>
    if s.closed then (none, s, h, none, RPoll.ready (Except.error MError.closed))
    else
      let s1 : DState M := { s with buffer := m :: s.buffer }
      let r := wakeNext s1.wakers h
      (none, { s1 with wakers := r.1 }, r.2.1, r.2.2, RPoll.ready (Except.ok ()))
  | none => (msg, s, h, none, RPoll.pending)

/-- C2: dropping a receive future whose waker cell was marked woken (but that
never consumed an item) invokes `wake_next` on the shared state: the first
still-live entry of the registry (the dropped cell itself is dead by then) is
triggered and marked woken, and the queue is left untouched, so the enqueued
item remains available to the newly woken waiter. -/
theorem receive_drop_woken_wakes_next (f : RecvFut) (s : CState M E)
    (h : WakerHeap) (id : Nat) (hw : f.waker = some id)
    (hwoken : heapLookup h id = some true) :
    (dropReceive f s h).2.2 = firstLive (heapErase h id) s.wakers ∧
    (∀ j, (dropReceive f s h).2.2 = some j →
      heapLookup (dropReceive f s h).2.1 j = some true) ∧
    (dropReceive f s h).1.queue = s.queue ∧
    (dropReceive f s h).1.closed = s.closed := by
  have hd : dropReceive f s h = stateWakeNext s (heapErase h id) := by
    unfold dropReceive
    rw [hw]
    simp [hwoken]
  rw [hd]
  unfold stateWakeNext
  refine ⟨wakeNext_fires_firstLive _ _, ?_, rfl, rfl⟩
  intro j hj
  exact wakeNext_marks_woken _ _ _ hj

/-- Witness for C2 at a concrete input: future owns woken cell 5, registry
holds the live cell 7; the drop triggers and marks cell 7. -/
theorem receive_drop_woken_wakes_next_witness :
    (dropReceive (M := Nat) (E := Unit) ⟨false, some 5⟩
        ⟨[Except.ok 0], [7], false⟩ [(5, true), (7, false)]).2.2 = some 7 ∧
    heapLookup (dropReceive (M := Nat) (E := Unit) ⟨false, some 5⟩
        ⟨[Except.ok 0], [7], false⟩ [(5, true), (7, false)]).2.1 7 = some true := by
  have h := receive_drop_woken_wakes_next (M := Nat) (E := Unit)
    ⟨false, some 5⟩ ⟨[Except.ok 0], [7], false⟩ [(5, true), (7, false)] 5 rfl rfl
  exact ⟨by simpa using h.1, h.2.1 7 (by simpa using h.1)⟩

/-- C3 counterexample: receivers R1 (cell id 1) and R2 (cell id 2) park in
that order on a fresh state; an item is enqueued and `wake_next` runs once.
The cell that is marked woken and triggered is R2 (the most recently
registered), not R1 as the claim states: R1 stays unwoken. -/
theorem wakeups_not_fifo_counterexample :
    (let r1 := pollReceive (M := Nat) (E := Unit) 1 RecvFut.new (CState.new Nat Unit) []
     let r2 := pollReceive 2 RecvFut.new r1.2.2.1 r1.2.2.2
     let afterMessage := stateMessage r2.2.2.1 0
     let wake := stateWakeNext afterMessage r2.2.2.2
     wake.2.2 = some 2 ∧ wake.2.2 ≠ some 1 ∧
       heapLookup wake.2.1 1 = some false ∧ heapLookup wake.2.1 2 = some true) := by
  exact ⟨rfl, by decide, rfl, rfl⟩

/-- C3 amended: receiver wakeups are LIFO.  If R1 and R2 park in that order
(registration is `push_front`) and a single item is enqueued followed by one
`wake_next` (which pops from the front), R2 — the most recently registered
still-live entry — is the one marked woken and triggered, while R1 stays
registered and unwoken. -/
theorem wakeups_lifo (s : CState M E) (h : WakerHeap) (a b : Nat) (m : M)
    (hq : s.queue = []) (hc : s.closed = false) (hab : a ≠ b) :
    (let r1 := pollReceive a RecvFut.new s h
     let r2 := pollReceive b RecvFut.new r1.2.2.1 r1.2.2.2
     let afterMessage := stateMessage r2.2.2.1 m
     let wake := stateWakeNext afterMessage r2.2.2.2
     r1.2.1.waker = some a ∧ r2.2.1.waker = some b ∧
       wake.2.2 = some b ∧ heapLookup wake.2.1 b = some true ∧
       heapLookup wake.2.1 a = some false ∧
       wake.1.wakers = a :: s.wakers) := by
  obtain ⟨q, w, c⟩ := s
  simp only at hq hc
  subst hq hc
  simp only [pollReceive, RecvFut.new, List.getLast?, stateMessage, stateWakeNext,
    wakeNext, heapLive, heapInsert, heapLookup, if_pos rfl]
  simp only [heapLookup_setWoken, heapLookup, if_pos rfl, if_neg (Ne.symm hab),
    if_neg hab]
  simp [heapSetWoken]

/-- Witness for C3 amended claim at concrete ids 1 and 2 on the empty state. -/
theorem wakeups_lifo_witness :
    (let r1 := pollReceive (M := Nat) (E := Unit) 1 RecvFut.new (CState.new Nat Unit) []
     let r2 := pollReceive 2 RecvFut.new r1.2.2.1 r1.2.2.2
     let afterMessage := stateMessage r2.2.2.1 3
     let wake := stateWakeNext afterMessage r2.2.2.2
     r1.2.1.waker = some 1 ∧ r2.2.1.waker = some 2 ∧
       wake.2.2 = some 2 ∧ heapLookup wake.2.1 2 = some true ∧
       heapLookup wake.2.1 1 = some false ∧
       wake.1.wakers = 1 :: (CState.new Nat Unit).wakers) :=
  wakeups_lifo (CState.new Nat Unit) [] 1 2 3 rfl rfl (by decide)

/-- C4: evaluation of both in-memory send paths at the failing input (a
parked live waiter, cell id 1, registry `[1]`).  When closed, both return
`Closed` without touching the queue.  When open, the dummy carrier pushes
and wakes waiter 1, but the loopback carrier (`Sender::send` in
`mezzenger-loopback/src/sync.rs`) pushes the message and returns `Ok`
without calling `wake_next`: the registry still holds the parked waiter and
no cell is triggered (the function has no access to the waker arena at all),
contradicting the claim for the loopback carrier. -/
theorem loopback_send_never_wakes :
    (loopbackSendPoll (M := Nat) (E := Empty) (some 0) ⟨[], [1], true⟩ =
      (none, ⟨[], [1], true⟩, RPoll.ready (Except.error MError.closed))) ∧
    (loopbackSendPoll (M := Nat) (E := Empty) (some 0) ⟨[], [1], false⟩ =
      (none, ⟨[Except.ok 0], [1], false⟩, RPoll.ready (Except.ok ()))) ∧
    (dummySendPoll (M := Nat) (some 0) ⟨[], [1], true⟩ [(1, false)] =
      (none, ⟨[], [1], true⟩, [(1, false)], none, RPoll.ready (Except.error MError.closed))) ∧
    (dummySendPoll (M := Nat) (some 0) ⟨[], [1], false⟩ [(1, false)] =
      (none, ⟨[0], [], false⟩, [(1, true)], some 1, RPoll.ready (Except.ok ()))) :=
  ⟨rfl, rfl, rfl, rfl⟩

/-- C5: the first poll of a fresh receive future.  If the queue is non-empty
it returns Ready with the oldest item (the back of the deque, since arrivals
are pushed at the front) without registering any waker; if the queue is
empty and the state closed it returns Ready(Err(Closed)); only if the queue
is empty and the state open does it register a fresh waker cell at the front
of the registry and return Pending. -/
theorem receive_first_poll_cases (s : CState M E) (h : WakerHeap)
    (fresh : Nat) :
    (∀ q item, s.queue = q ++ [item] →
      pollReceive fresh RecvFut.new s h =
        (RPoll.ready (item.mapError MError.other), ⟨true, none⟩,
         { s with queue := q }, h)) ∧
    (s.queue = [] → s.closed = true →
      pollReceive fresh RecvFut.new s h =
        (RPoll.ready (Except.error MError.closed), ⟨true, none⟩, s, h)) ∧
    (s.queue = [] → s.closed = false →
      pollReceive fresh RecvFut.new s h =
        (RPoll.pending, ⟨false, some fresh⟩,
         { s with wakers := fresh :: s.wakers }, heapInsert h fresh)) := by
  refine ⟨?_, ?_, ?_⟩
  · intro q item hq
    simp only [pollReceive, RecvFut.new]
    rw [hq]
    simp [List.getLast?_concat, List.dropLast_concat]
  · intro hq hc
    simp only [pollReceive, RecvFut.new]
    rw [hq]
    simp [hc, List.getLast?]
  · intro hq hc
    simp only [pollReceive, RecvFut.new]
    rw [hq]
    simp [hc, List.getLast?]

/-- Witness for C5: the three branches at concrete inputs. -/
theorem receive_first_poll_cases_witness :
    (pollReceive (M := Nat) (E := Unit) 9 RecvFut.new ⟨[Except.ok 3], [], false⟩ [] =
      (RPoll.ready (Except.ok 3), ⟨true, none⟩, ⟨[], [], false⟩, [])) ∧
    (pollReceive (M := Nat) (E := Unit) 9 RecvFut.new ⟨[], [], true⟩ [] =
      (RPoll.ready (Except.error MError.closed), ⟨true, none⟩, ⟨[], [], true⟩, [])) ∧
    (pollReceive (M := Nat) (E := Unit) 9 RecvFut.new ⟨[], [], false⟩ [] =
      (RPoll.pending, ⟨false, some 9⟩, ⟨[], [9], false⟩, [(9, false)])) := by
  refine ⟨?_, ?_, ?_⟩
  · exact (receive_first_poll_cases ⟨[Except.ok 3], [], false⟩ [] 9).1 [] (Except.ok 3) rfl
  · exact (receive_first_poll_cases ⟨[], [], true⟩ [] 9).2.1 rfl rfl
  · exact (receive_first_poll_cases ⟨[], [], false⟩ [] 9).2.2 rfl rfl

/-- Result of `futures::Stream::poll_next` as seen by the facade user. -/
inductive FacadePoll (M : Type) where
  | readySome (m : M)
  | readyNone
  | pending

/-- Method `Stream::poll_next` of the facade (`mezzenger/src/lib.rs` lines 148-163):
poll a fresh receive future; `Ok` yields the message, `Closed` sets
`terminated` and ends the stream, any `Other` error leaves the stream alive
(the error is dropped and `Pending` returned).  The first component is the
`terminated` flag after the call. -/
def streamPollNext (terminated : Bool) (p : RPoll M E) : Bool × FacadePoll M :=
  match p with
  | RPoll.pending => (terminated, FacadePoll.pending)
  | RPoll.ready (Except.ok m) => (terminated, FacadePoll.readySome m)
  | RPoll.ready (Except.error MError.closed) => (true, FacadePoll.readyNone)
  | RPoll.ready (Except.error (MError.other _)) => (terminated, FacadePoll.pending)

/-- C9 counterexample: the claim says an `Other(E)` error is delivered
out-of-band while the stream continues; in the code (`mezzenger/src/lib.rs`
line 157) the error is silently dropped.  `streamPollNext` is the complete
model of `Stream::poll_next` and its returned pair is the only observable:
at the concrete input `terminated = false`, the polls resolving to
`Other 0` and to `Other 1` return the identical error-free result
`(false, Pending)` — the result carries no channel of the error type and
does not depend on the error value, so no error is delivered anywhere. -/
theorem stream_facade_error_dropped_counterexample :
    streamPollNext (M := Nat) (E := Nat) false
        (RPoll.ready (Except.error (MError.other 0))) =
      (false, FacadePoll.pending) ∧
    streamPollNext (M := Nat) (E := Nat) false
        (RPoll.ready (Except.error (MError.other 1))) =
      (false, FacadePoll.pending) :=
  ⟨rfl, rfl⟩

/-- C9 amended: the stream facade ends the stream (Ready(None) plus the
terminated flag) exactly when the underlying receive resolves to `Closed`;
a successful receive yields the message; an `Other` error or a pending
receive leaves the stream alive and the flag unchanged — but the `Other`
error is silently discarded rather than delivered out-of-band: `poll_next`
returns `Pending` and its result is independent of the error value (the
facade has no error callback). -/
theorem stream_facade_poll_next (t : Bool) (m : M) (e : E) :
    streamPollNext (M := M) (E := E) t (RPoll.ready (Except.ok m)) =
      (t, FacadePoll.readySome m) ∧
    streamPollNext (M := M) (E := E) t (RPoll.ready (Except.error MError.closed)) =
      (true, FacadePoll.readyNone) ∧
    streamPollNext (M := M) t (RPoll.ready (Except.error (MError.other e))) =
      (t, FacadePoll.pending) ∧
    streamPollNext (M := M) (E := E) t RPoll.pending = (t, FacadePoll.pending) ∧
    (∀ p : RPoll M E,
      (streamPollNext t p).2 = FacadePoll.readyNone ↔
        p = RPoll.ready (Except.error MError.closed)) ∧
    (∀ a b : E,
      streamPollNext (M := M) t (RPoll.ready (Except.error (MError.other a))) =
        streamPollNext (M := M) t (RPoll.ready (Except.error (MError.other b)))) := by
  refine ⟨rfl, rfl, rfl, rfl, ?_, fun a b => rfl⟩
  intro p
  constructor
  · intro hp
    match p with
    | RPoll.pending => simp [streamPollNext] at hp
    | RPoll.ready (Except.ok m) => simp [streamPollNext] at hp
    | RPoll.ready (Except.error MError.closed) => rfl
    | RPoll.ready (Except.error (MError.other e)) => simp [streamPollNext] at hp
  · intro hp
    subst hp
    rfl

/-- The error enum of `mezzenger-tcp/src/lib.rs` lines 40-45. -/
inductive TcpError where
  | messageTooLarge
  | serializationError
  | deserializationError
  | ioError

/-- Big-endian 32-bit encoding (`u32::to_be_bytes` / `BytesMut::put_u32`). -/
def u32be (n : Nat) : List Nat :=
  [n / 2 ^ 24 % 256, n / 2 ^ 16 % 256, n / 2 ^ 8 % 256, n % 256]

/-- Method `Transport::start_send` of the framer (`mezzenger-tcp/src/lib.rs` lines
163-186): append a 4-byte zero placeholder, append the encoding of the item
(`enc`), measure it; if it exceeds `maxSize`, truncate back to the
placeholder position and return `MessageTooLarge`; otherwise overwrite the
placeholder with the big-endian length.  The codec is abstracted as the
already-computed byte encoding `enc` of the item (serialization failure is
out of scope of the embedded claims). -/
def startSend (maxSize : Nat) (terminated : Bool) (buffer enc : List Nat) :
    List Nat × Except (MError TcpError) Unit :=
  if terminated then (buffer, Except.error MError.closed)
  else
    let sizePosition := buffer.length
    let withPlaceholder := buffer ++ [0, 0, 0, 0]
    let currentLength := withPlaceholder.length
    let fullBuffer := withPlaceholder ++ enc
    let messageSize := fullBuffer.length - currentLength
    if messageSize > maxSize then
      (fullBuffer.take sizePosition, Except.error (MError.other TcpError.messageTooLarge))
    else
      (fullBuffer.take sizePosition ++ u32be messageSize ++ fullBuffer.drop (sizePosition + 4),
       Except.ok ())

/-- C6: an oversize `start_send` returns `Other(MessageTooLarge)` and leaves
the send buffer exactly as it was before the call; a subsequent valid send
on that buffer frames correctly (big-endian length header followed by the
encoded payload appended to the untouched buffer). -/
theorem framer_start_send_rollback (maxSize : Nat) (buffer enc good : List Nat)
    (hbig : enc.length > maxSize) (hgood : good.length ≤ maxSize) :
    startSend maxSize false buffer enc =
      (buffer, Except.error (MError.other TcpError.messageTooLarge)) ∧
    startSend maxSize false buffer good =
      (buffer ++ u32be good.length ++ good, Except.ok ()) := by
  have hsize : ∀ x : List Nat,
      ((buffer ++ [0, 0, 0, 0]) ++ x).length - (buffer ++ [0, 0, 0, 0]).length
        = x.length := by
    intro x
    simp only [List.length_append, List.length_cons, List.length_nil]
    omega
  have htake : ∀ x : List Nat,
      ((buffer ++ [0, 0, 0, 0]) ++ x).take buffer.length = buffer := by
    intro x
    rw [List.append_assoc]
    exact List.take_left buffer ([0, 0, 0, 0] ++ x)
  have hdrop : ∀ x : List Nat,
      ((buffer ++ [0, 0, 0, 0]) ++ x).drop (buffer.length + 4) = x := by
    intro x
    have hlen : (buffer ++ [0, 0, 0, 0]).length = buffer.length + 4 := by simp
    rw [← hlen, List.drop_left]
  constructor
  · simp only [startSend, if_neg (Bool.false_ne_true), hsize]
    rw [if_pos hbig, htake]
  · simp only [startSend, if_neg (Bool.false_ne_true), hsize]
    rw [if_neg (by omega), htake, hdrop]

/-- Witness for C6: limit 2, oversize encoding of length 3 rolled back, then
a 1-byte message framed on the unchanged buffer. -/
theorem framer_start_send_rollback_witness :
    startSend 2 false [5] [1, 2, 3] =
      ([5], Except.error (MError.other TcpError.messageTooLarge)) ∧
    startSend 2 false [5] [7] = ([5] ++ u32be 1 ++ [7], Except.ok ()) :=
  framer_start_send_rollback 2 [5] [1, 2, 3] [7] (by decide) (by decide)

/-- Trait `num::WrappingAdd` on an unsigned integer of width `w` bits. -/
def wrappingAdd (w a b : Nat) : Nat := (a + b) % 2 ^ w

/-- Method `Numbered::start_send` (`mezzenger-utils/src/numbered.rs` lines 165-176):
wrap the item with the current number and hand it to the inner transport;
advance the counter by a wrapping increment only when the inner call
succeeded.  The inner transport decision is abstracted as the boolean
`innerOk`; the result is the wrapper number handed down (paired with the
outcome) and the new counter. -/
def numberedStartSend (w cur : Nat) (innerOk : Bool) : (Nat × Bool) × Nat :=
  ((cur, innerOk), if innerOk then wrappingAdd w cur 1 else cur)

/-- A sequence of `start_send` calls with the given inner outcomes, started
from counter `cur`; returns the wrapper numbers handed to the inner
transport with their outcomes. -/
def numberedRun (w : Nat) : Nat → List Bool → List (Nat × Bool)
  | _, [] => []
  | cur, ok :: rest =>
    let r := numberedStartSend w cur ok
    r.1 :: numberedRun w r.2 rest

theorem numberedRun_successes (w : Nat) (outs : List Bool) (s : Nat) :
    List.map Prod.fst (List.filter (fun p => p.2) (numberedRun w (s % 2 ^ w) outs)) =
      (List.range (outs.count true)).map (fun i => (s + i) % 2 ^ w) := by
  induction outs generalizing s with
  | nil => rfl
  | cons ok rest ih =>
    cases ok with
    | false =>
      simp only [numberedRun, numberedStartSend, if_neg (Bool.false_ne_true)]
      have : (rest.count true) = ((false :: rest).count true) := by
        simp [List.count_cons]
      rw [← this]
      simpa using ih s
    | true =>
      have hstep : (s % 2 ^ w + 1) % 2 ^ w = (s + 1) % 2 ^ w := by
        conv_lhs => rw [Nat.add_mod]
        conv_rhs => rw [Nat.add_mod]
        rw [Nat.mod_mod_of_dvd _ dvd_rfl]
      have hrun : numberedRun w (s % 2 ^ w) (true :: rest) =
          (s % 2 ^ w, true) :: numberedRun w ((s + 1) % 2 ^ w) rest := by
        simp [numberedRun, numberedStartSend, wrappingAdd, hstep]
      rw [hrun]
      rw [List.filter_cons_of_pos rfl, List.map_cons, ih (s + 1)]
      have hcount : ((true :: rest).count true) = rest.count true + 1 := by
        simp [List.count_cons]
      rw [hcount, List.range_succ_eq_map, List.map_cons, List.map_map]
      congr 1
      apply List.map_congr_left
      intro a ha
      simp only [Function.comp_apply]
      congr 1
      omega

/-- C7: starting from a fresh `Numbered` decorator, the wrapper numbers of
the successfully sent messages are 0, 1, ..., n-1 modulo 2 to the w (the
width of the unsigned counter type); every handed wrapper carries the
counter value at call time, a failed `start_send` leaves the counter
unchanged and a successful one advances it by a wrapping increment. -/
theorem numbered_send_numbers (w : Nat) (outs : List Bool) :
    (List.map Prod.fst (List.filter (fun p => p.2) (numberedRun w 0 outs)) =
      (List.range (outs.count true)).map (fun i => i % 2 ^ w)) ∧
    (∀ cur, (numberedStartSend w cur false).2 = cur) ∧
    (∀ cur, (numberedStartSend w cur true).2 = (cur + 1) % 2 ^ w) ∧
    (∀ cur ok, (numberedStartSend w cur ok).1 = (cur, ok)) := by
  refine ⟨?_, fun cur => rfl, fun cur => rfl, fun cur ok => rfl⟩
  have h := numberedRun_successes w outs 0
  rw [Nat.zero_mod] at h
  rw [h]
  simp

/-- One poll of the inner stream of a `LatestOnly` decorator
(`mezzenger-utils/src/latest_only.rs`): an item (its attached number from the
`Number` trait, and its payload), an error, end of stream, or pending. -/
inductive InnerEv (A E : Type) where
  | item (n : Nat) (a : A)
  | fail (e : E)
  | eos
  | pending

/-- Result of one `LatestOnly::poll_next` call. -/
inductive LOut (A E : Type) where
  | emit (n : Nat) (a : A)
  | failed (e : E)
  | ended
  | pending

/-- The freshness comparison of `latest_only.rs` line 130:
`last_number.is_none() || number > last_number.unwrap()` with the natural
order on the number type. -/
def freshCmp (last : Option Nat) (n : Nat) : Bool :=
  match last with
  | none => true
  | some m => decide (m < n)

/-- Method `LatestOnly::poll_next` (`latest_only.rs` lines 121-147): drain the inner
stream, holding the freshest item seen (`latest`) and updating `last_number`;
an inner error returns immediately (the held item is discarded); inner
`Pending` (or running out of modelled events) emits the held item if any.
Returns the poll result, the new `last_number`, and the unconsumed events. -/
def loPollNext (last : Option Nat) (latest : Option (Nat × A)) :
    List (InnerEv A E) → LOut A E × Option Nat × List (InnerEv A E)
  | [] =>
    (match latest with
     | some (n, a) => LOut.emit n a
     | none => LOut.pending, last, [])
  | InnerEv.item n a :: rest =>
    if freshCmp last n then loPollNext (some n) (some (n, a)) rest
    else loPollNext last latest rest
  | InnerEv.fail e :: rest => (LOut.failed e, last, rest)
  | InnerEv.eos :: rest => (LOut.ended, last, rest)
  | InnerEv.pending :: rest =>
    (match latest with
     | some (n, a) => LOut.emit n a
     | none => LOut.pending, last, rest)

theorem loPollNext_suffix (last : Option Nat) (latest : Option (Nat × A))
    (evs : List (InnerEv A E)) :
    (loPollNext last latest evs).2.2.IsSuffix evs := by
  induction evs generalizing last latest with
  | nil => exact List.suffix_refl _
  | cons e rest ih =>
    have hrest : rest.IsSuffix (e :: rest) := ⟨[e], rfl⟩
    cases e with
    | item n a =>
      simp only [loPollNext]
      split
      · exact (ih (some n) (some (n, a))).trans hrest
      · exact (ih last latest).trans hrest
    | fail e => exact hrest
    | eos => exact hrest
    | pending => exact hrest

theorem loPollNext_consumes (last : Option Nat) (latest : Option (Nat × A))
    (evs : List (InnerEv A E)) (h : evs ≠ []) :
    (loPollNext last latest evs).2.2.length < evs.length := by
  induction evs generalizing last latest with
  | nil => exact absurd rfl h
  | cons e rest ih =>
    cases e with
    | item n a =>
      simp only [loPollNext]
      rcases eq_or_ne rest [] with hr | hr
      · subst hr
        split <;> simp [loPollNext]
      · split
        · exact (ih (some n) (some (n, a)) hr).trans (by simp)
        · exact (ih last latest hr).trans (by simp)
    | fail e => simp [loPollNext]
    | eos => simp [loPollNext]
    | pending => simp [loPollNext]

/-- The driver: repeated `poll_next` calls from a given `last_number` until
the modelled inner events are exhausted, collecting the poll results. -/
def loRun (last : Option Nat) : List (InnerEv A E) → List (LOut A E)
  | [] => []
  | e :: evs =>
    let r := loPollNext last none (e :: evs)
    r.1 :: loRun r.2.1 r.2.2
termination_by evs => evs.length
decreasing_by
  exact loPollNext_consumes _ _ _ (by simp)

/-- Numbers of the items actually emitted by a sequence of poll results. -/
def emittedNumbers : List (LOut A E) → List Nat
  | [] => []
  | LOut.emit n _ :: rest => n :: emittedNumbers rest
  | LOut.failed _ :: rest => emittedNumbers rest
  | LOut.ended :: rest => emittedNumbers rest
  | LOut.pending :: rest => emittedNumbers rest

/-- Strict upper-bound relation on an optional number: every value carried by
the option is strictly below `n`. -/
def obnd (l : Option Nat) (n : Nat) : Prop :=
  ∀ m, l = some m → m < n

/-- Invariants of a single `LatestOnly::poll_next` call: `last_number` is
monotone; an emitted item has number equal to the new `last_number`,
strictly above the starting `last_number` (when no item was held on entry)
and comes from the inner stream (or the held item); and every inner item
drained by this call has number at most the new `last_number`. -/
theorem loPollNext_spec (evs : List (InnerEv A E)) (l : Option Nat)
    (lat : Option (Nat × A))
    (hlat : ∀ n a, lat = some (n, a) → l = some n) :
    (∀ m, l = some m → ∃ k, (loPollNext l lat evs).2.1 = some k ∧ m ≤ k) ∧
    (∀ n a, (loPollNext l lat evs).1 = LOut.emit n a →
      (loPollNext l lat evs).2.1 = some n ∧
      (lat = none → obnd l n) ∧
      (InnerEv.item n a ∈ evs ∨ lat = some (n, a))) ∧
    (∀ m b, InnerEv.item m b ∈
        evs.take (evs.length - (loPollNext l lat evs).2.2.length) →
      ∃ k, (loPollNext l lat evs).2.1 = some k ∧ m ≤ k) := by
  induction evs generalizing l lat with
  | nil =>
    refine ⟨fun m hm => ⟨m, by simpa [loPollNext] using hm, le_refl m⟩, ?_, ?_⟩
    · intro n a hout
      match hl : lat with
      | none => simp [loPollNext, hl] at hout
      | some (n0, a0) =>
        simp only [loPollNext, hl] at hout ⊢
        cases hout
        exact ⟨hlat n a rfl, fun h => (Option.some_ne_none _ h).elim, Or.inr rfl⟩
    · intro m b hmb
      simp [loPollNext] at hmb
  | cons e rest ih =>
    cases e with
    | pending =>
      refine ⟨fun m hm => ⟨m, ?_, le_refl m⟩, ?_, ?_⟩
      · cases lat with
        | none => simpa [loPollNext] using hm
        | some p => obtain ⟨n0, a0⟩ := p; simpa [loPollNext] using hm
      · intro n a hout
        match hl : lat with
        | none => simp [loPollNext, hl] at hout
        | some (n0, a0) =>
          simp only [loPollNext, hl] at hout ⊢
          cases hout
          exact ⟨hlat n a rfl, fun h => (Option.some_ne_none _ h).elim, Or.inr rfl⟩
      · intro m b hmb
        cases lat with
        | none => simp [loPollNext] at hmb
        | some p => obtain ⟨n0, a0⟩ := p; simp [loPollNext] at hmb
    | fail e0 =>
      refine ⟨fun m hm => ⟨m, by simpa [loPollNext] using hm, le_refl m⟩, ?_, ?_⟩
      · intro n a hout
        simp [loPollNext] at hout
      · intro m b hmb
        simp [loPollNext] at hmb
    | eos =>
      refine ⟨fun m hm => ⟨m, by simpa [loPollNext] using hm, le_refl m⟩, ?_, ?_⟩
      · intro n a hout
        simp [loPollNext] at hout
      · intro m b hmb
        simp [loPollNext] at hmb
    | item n0 a0 =>
      rcases hc : freshCmp l n0 with hfalse | htrue
      · -- stale item: dropped, recursion with unchanged state
        have heq : loPollNext l lat (InnerEv.item n0 a0 :: rest) =
            loPollNext l lat rest := by
          simp [loPollNext, hc]
        obtain ⟨ih1, ih2, ih3⟩ := ih l lat hlat
        have hle : (loPollNext l lat rest).2.2.length ≤ rest.length :=
          (loPollNext_suffix l lat rest).length_le
        have htk : (InnerEv.item n0 a0 :: rest).length -
            (loPollNext l lat rest).2.2.length =
            (rest.length - (loPollNext l lat rest).2.2.length) + 1 := by
          simp only [List.length_cons]
          omega
        have hstale : ∃ m0, l = some m0 ∧ n0 ≤ m0 := by
          match hl : l with
          | none => simp [freshCmp] at hc
          | some m0 =>
            simp only [freshCmp, decide_eq_false_iff_not, not_lt] at hc
            exact ⟨m0, rfl, hc⟩
        refine ⟨?_, ?_, ?_⟩
        · intro m hm
          rw [heq]
          exact ih1 m hm
        · intro n a hout
          rw [heq] at hout ⊢
          obtain ⟨h1, h2, h3⟩ := ih2 n a hout
          refine ⟨h1, h2, ?_⟩
          rcases h3 with h3 | h3
          · exact Or.inl (List.mem_cons_of_mem _ h3)
          · exact Or.inr h3
        · intro m b hmb
          rw [heq] at hmb ⊢
          rw [htk, List.take_succ_cons] at hmb
          rcases List.mem_cons.mp hmb with hmb | hmb
          · obtain ⟨m0, hl, hn0⟩ := hstale
            obtain ⟨k, hk, hmk⟩ := ih1 m0 hl
            cases hmb
            exact ⟨k, hk, le_trans hn0 hmk⟩
          · exact ih3 m b hmb
      · -- fresh item: accepted, last_number and latest updated
        have heq : loPollNext l lat (InnerEv.item n0 a0 :: rest) =
            loPollNext (some n0) (some (n0, a0)) rest := by
          simp [loPollNext, hc]
        obtain ⟨ih1, ih2, ih3⟩ := ih (some n0) (some (n0, a0))
          (fun n a h => by cases h; rfl)
        have hmono : ∃ k, (loPollNext (some n0) (some (n0, a0)) rest).2.1 =
            some k ∧ n0 ≤ k := ih1 n0 rfl
        have hle : (loPollNext (some n0) (some (n0, a0)) rest).2.2.length ≤
            rest.length :=
          (loPollNext_suffix (some n0) (some (n0, a0)) rest).length_le
        have htk : (InnerEv.item n0 a0 :: rest).length -
            (loPollNext (some n0) (some (n0, a0)) rest).2.2.length =
            (rest.length - (loPollNext (some n0) (some (n0, a0)) rest).2.2.length) + 1 := by
          simp only [List.length_cons]
          omega
        have hfresh : obnd l n0 := by
          intro m hm
          rw [hm] at hc
          simpa [freshCmp] using hc
        refine ⟨?_, ?_, ?_⟩
        · intro m hm
          rw [heq]
          obtain ⟨k, hk, hn0k⟩ := hmono
          exact ⟨k, hk, le_trans (le_of_lt (hfresh m hm)) hn0k⟩
        · intro n a hout
          rw [heq] at hout ⊢
          obtain ⟨h1, _h2, h3⟩ := ih2 n a hout
          have hn0n : n0 ≤ n := by
            obtain ⟨k, hk, hn0k⟩ := hmono
            rw [h1] at hk
            cases hk
            exact hn0k
          refine ⟨h1, ?_, ?_⟩
          · intro _ m hm
            exact lt_of_lt_of_le (hfresh m hm) hn0n
          · rcases h3 with h3 | h3
            · exact Or.inl (List.mem_cons_of_mem _ h3)
            · cases h3
              exact Or.inl (List.mem_cons_self _ _)
        · intro m b hmb
          rw [heq] at hmb ⊢
          rw [htk, List.take_succ_cons] at hmb
          rcases List.mem_cons.mp hmb with hmb | hmb
          · obtain ⟨k, hk, hn0k⟩ := hmono
            cases hmb
            exact ⟨k, hk, hn0k⟩
          · exact ih3 m b hmb

theorem emit_mem_emittedNumbers {outs : List (LOut A E)} {n : Nat} {a : A}
    (h : LOut.emit n a ∈ outs) : n ∈ emittedNumbers outs := by
  induction outs with
  | nil => cases h
  | cons o rest ih =>
    rcases List.mem_cons.mp h with h1 | h1
    · subst h1
      simp [emittedNumbers]
    · cases o with
      | emit n2 a2 =>
        simp only [emittedNumbers, List.mem_cons]
        exact Or.inr (ih h1)
      | failed e0 => simpa [emittedNumbers] using ih h1
      | ended => simpa [emittedNumbers] using ih h1
      | pending => simpa [emittedNumbers] using ih h1

theorem loRun_bounded (N : Nat) :
    ∀ (evs : List (InnerEv A E)) (l0 : Option Nat), evs.length ≤ N →
    (∀ x, x ∈ emittedNumbers (loRun l0 evs) → obnd l0 x) ∧
    List.Chain' (· < ·) (emittedNumbers (loRun l0 evs)) ∧
    (∀ n a, LOut.emit n a ∈ loRun l0 evs → InnerEv.item n a ∈ evs) := by
  induction N with
  | zero =>
    intro evs l0 hlen
    have : evs = [] := List.length_eq_zero.mp (Nat.le_zero.mp hlen)
    subst this
    simp [loRun, emittedNumbers]
  | succ N ih =>
    intro evs l0 hlen
    match evs with
    | [] => simp [loRun, emittedNumbers]
    | e :: tail =>
      have hrun : loRun l0 (e :: tail) =
          (loPollNext l0 none (e :: tail)).1 ::
            loRun (loPollNext l0 none (e :: tail)).2.1
              (loPollNext l0 none (e :: tail)).2.2 := by
        simp only [loRun]
      have hlt : (loPollNext l0 none (e :: tail)).2.2.length < (e :: tail).length :=
        loPollNext_consumes _ _ _ (by simp)
      have hrec := ih (loPollNext l0 none (e :: tail)).2.2
        (loPollNext l0 none (e :: tail)).2.1
        (by simp only [List.length_cons] at hlt hlen; omega)
      obtain ⟨ihA, ihB, ihC⟩ := hrec
      obtain ⟨mono, emitSpec, _⟩ :=
        loPollNext_spec (e :: tail) l0 none (fun n a h => Option.noConfusion h)
      have hsuffix := loPollNext_suffix l0 none (e :: tail)
      match hout : (loPollNext l0 none (e :: tail)).1 with
      | LOut.emit n a =>
        obtain ⟨h1, h2, h3⟩ := emitSpec n a hout
        have hobnd : obnd l0 n := h2 rfl
        have hmem : InnerEv.item n a ∈ e :: tail := by
          rcases h3 with h3 | h3
          · exact h3
          · exact Option.noConfusion h3
        rw [hrun, hout]
        refine ⟨?_, ?_, ?_⟩
        · intro x hx
          simp only [emittedNumbers, List.mem_cons] at hx
          rcases hx with rfl | hx
          · exact hobnd
          · intro m hm
            have hbx := ihA x hx
            rw [h1] at hbx
            exact lt_trans (hobnd m hm) (hbx n rfl)
        · simp only [emittedNumbers]
          refine List.chain'_cons'.mpr ⟨?_, ihB⟩
          intro y hy
          have hymem : y ∈ emittedNumbers
              (loRun (loPollNext l0 none (e :: tail)).2.1
                (loPollNext l0 none (e :: tail)).2.2) :=
            List.mem_of_mem_head? hy
          have := ihA y hymem
          rw [h1] at this
          exact this n rfl
        · intro k b hk
          rcases List.mem_cons.mp hk with hk | hk
          · cases hk
            exact hmem
          · exact hsuffix.subset (ihC k b hk)
      | LOut.failed e0 =>
        rw [hrun, hout]
        refine ⟨?_, ?_, ?_⟩
        · intro x hx
          simp only [emittedNumbers] at hx
          intro m hm
          obtain ⟨k, hk, hmk⟩ := mono m hm
          have := ihA x hx
          rw [hk] at this
          exact lt_of_le_of_lt hmk (this k rfl)
        · simpa [emittedNumbers] using ihB
        · intro k b hk
          rcases List.mem_cons.mp hk with hk | hk
          · cases hk
          · exact hsuffix.subset (ihC k b hk)
      | LOut.ended =>
        rw [hrun, hout]
        refine ⟨?_, ?_, ?_⟩
        · intro x hx
          simp only [emittedNumbers] at hx
          intro m hm
          obtain ⟨k, hk, hmk⟩ := mono m hm
          have := ihA x hx
          rw [hk] at this
          exact lt_of_le_of_lt hmk (this k rfl)
        · simpa [emittedNumbers] using ihB
        · intro k b hk
          rcases List.mem_cons.mp hk with hk | hk
          · cases hk
          · exact hsuffix.subset (ihC k b hk)
      | LOut.pending =>
        rw [hrun, hout]
        refine ⟨?_, ?_, ?_⟩
        · intro x hx
          simp only [emittedNumbers] at hx
          intro m hm
          obtain ⟨k, hk, hmk⟩ := mono m hm
          have := ihA x hx
          rw [hk] at this
          exact lt_of_le_of_lt hmk (this k rfl)
        · simpa [emittedNumbers] using ihB
        · intro k b hk
          rcases List.mem_cons.mp hk with hk | hk
          · cases hk
          · exact hsuffix.subset (ihC k b hk)

theorem loRun_spec (evs : List (InnerEv A E)) (l0 : Option Nat) :
    (∀ x, x ∈ emittedNumbers (loRun l0 evs) → obnd l0 x) ∧
    List.Chain' (· < ·) (emittedNumbers (loRun l0 evs)) ∧
    (∀ n a, LOut.emit n a ∈ loRun l0 evs → InnerEv.item n a ∈ evs) :=
  loRun_bounded evs.length evs l0 (le_refl _)

/-- C8: over any sequence of polls of a fresh `LatestOnly` decorator and any
inbound events, the numbers of the emitted items are strictly increasing
under the natural order; every emitted item came in from the inner stream;
an inbound item whose number is not strictly greater than `last_number` is
dropped (the poll proceeds exactly as if the item had not arrived); and
within one poll the emitted item has the greatest number among the items
drained by that poll. -/
theorem latest_only_emits_increasing (evs : List (InnerEv A E)) :
    List.Chain' (· < ·) (emittedNumbers (loRun none evs)) ∧
    (∀ n a, LOut.emit n a ∈ loRun none evs → InnerEv.item n a ∈ evs) ∧
    (∀ (l : Option Nat) (lat : Option (Nat × A)) (n : Nat) (a : A)
        (rest : List (InnerEv A E)), freshCmp l n = false →
      loPollNext l lat (InnerEv.item n a :: rest) = loPollNext l lat rest) ∧
    (∀ (l : Option Nat) (n : Nat) (a : A),
      (loPollNext l none evs).1 = LOut.emit n a →
      ∀ m b, InnerEv.item m b ∈
          evs.take (evs.length - (loPollNext l none evs).2.2.length) →
        m ≤ n) := by
  obtain ⟨_, hchain, hmem⟩ := loRun_spec evs (A := A) (E := E) none
  refine ⟨hchain, hmem, ?_, ?_⟩
  · intro l lat n a rest hstale
    simp [loPollNext, hstale]
  · intro l n a hout m b hmb
    obtain ⟨_, emitSpec, drained⟩ :=
      loPollNext_spec evs l none (fun n a h => Option.noConfusion h)
    obtain ⟨h1, _, _⟩ := emitSpec n a hout
    obtain ⟨k, hk, hmk⟩ := drained m b hmb
    rw [h1] at hk
    cases hk
    exact hmk

/-- Witness for C8: the spec scenario (inbound numbers 1, 2, 0 with payloads
2, 3, 1) emits only payload 3 with number 2, and the stale-drop equation at
a concrete stale input. -/
theorem latest_only_emits_increasing_witness :
    List.Chain' (· < ·) (emittedNumbers (loRun (A := Nat) (E := Unit) none
      [InnerEv.item 1 2, InnerEv.item 2 3, InnerEv.item 0 1, InnerEv.pending])) ∧
    loPollNext (A := Nat) (E := Unit) (some 5) none
        (InnerEv.item 3 0 :: [InnerEv.pending]) =
      loPollNext (some 5) none [InnerEv.pending] :=
  ⟨(latest_only_emits_increasing _).1,
   (latest_only_emits_increasing
      [InnerEv.item 3 0, InnerEv.pending]).2.2.1 (some 5) none 3 0
      [InnerEv.pending] (by decide)⟩

/-- C10: if within one poll the inner stream yields a fresh item and then an
error, the poll returns the error immediately, discarding the held item, yet
`last_number` keeps the discarded number; afterwards any item with a number
not above it is dropped, and everything emitted later is a strictly newer
inner item. -/
theorem latest_only_error_discards_latest (l : Option Nat) (n : Nat) (a : A)
    (e : E) (rest : List (InnerEv A E)) (hfresh : freshCmp l n = true) :
    loPollNext l none (InnerEv.item n a :: InnerEv.fail e :: rest) =
      (LOut.failed e, some n, rest) ∧
    (∀ (m : Nat) (b : A) (rest2 : List (InnerEv A E)) (lat : Option (Nat × A)),
      m ≤ n →
      loPollNext (some n) lat (InnerEv.item m b :: rest2) =
        loPollNext (some n) lat rest2) ∧
    (∀ (k : Nat) (b : A), LOut.emit k b ∈ loRun (some n) rest →
      InnerEv.item k b ∈ rest ∧ n < k) := by
  refine ⟨?_, ?_, ?_⟩
  · simp [loPollNext, hfresh]
  · intro m b rest2 lat hmn
    have hstale : freshCmp (some n) m = false := by
      simp [freshCmp]
      omega
    simp [loPollNext, hstale]
  · intro k b hk
    obtain ⟨hbound, _, hmem⟩ := loRun_spec rest (A := A) (E := E) (some n)
    refine ⟨hmem k b hk, ?_⟩
    exact hbound k (emit_mem_emittedNumbers hk) n rfl

/-- Witness for C10: fresh item number 4 then an error; the error is
returned, number 4 is remembered, a later item numbered 4 is dropped. -/
theorem latest_only_error_discards_latest_witness :
    loPollNext (A := Nat) (E := Unit) none none
        (InnerEv.item 4 9 :: InnerEv.fail () :: [InnerEv.pending]) =
      (LOut.failed (), some 4, [InnerEv.pending]) ∧
    loPollNext (A := Nat) (E := Unit) (some 4) none
        (InnerEv.item 4 7 :: []) =
      loPollNext (some 4) none [] := by
  have h := latest_only_error_discards_latest (A := Nat) (E := Unit)
    none 4 9 () [InnerEv.pending] (by decide)
  exact ⟨h.1, h.2.1 4 7 [] none (by decide)⟩

/-- Struct `ReceiveState` of the framer (`mezzenger-tcp/src/lib.rs` lines 73-91).
Bytes are modelled as natural numbers; `bytes_to_receive` is an `i64`. -/
structure RecvState where
  buffer : List Nat
  messageSize : Nat
  receivingSize : Bool
  bytesToReceive : Int
  bytesToSkip : Nat
deriving DecidableEq, Repr

/-- Constructor `ReceiveState::new` (lines 82-90). -/
def RecvState.init : RecvState :=
  { buffer := [], messageSize := 0, receivingSize := true,
    bytesToReceive := 4, bytesToSkip := 0 }

/-- Method `BytesMut::get_u32`: big-endian read of the first four buffered bytes.
The caller guards the length (`get_u32` aborts the Rust program when fewer than four
bytes are buffered; the embedding returns a `fault` poll in that case). -/
def readU32 : List Nat → Nat
  | b0 :: b1 :: b2 :: b3 :: _ => b0 * 2 ^ 24 + b1 * 2 ^ 16 + b2 * 2 ^ 8 + b3
  | _ => 0

/-- Method `i64::saturating_sub_unsigned`. -/
def satSubU (a : Int) (b : Nat) : Int :=
  max (a - b) (-(2 ^ 63))

/-- One poll of the underlying reader: a successful read returning the given
bytes (reading zero bytes signals end of stream), or an IO error (`fatal`
models `ConnectionReset` and `ConnectionAborted`). -/
inductive ReadEv where
  | data (bytes : List Nat)
  | ioFault (fatal : Bool)
deriving DecidableEq, Repr

/-- One item of the framer receive stream.  The codec is abstracted: a
decoded message is represented by the exact byte slice the code hands to
`codec.decode` (line 249), so `message` covers both the `Ok` and the
`DeserializationError` outcome of the external codec. -/
inductive FrameOut where
  | message (payload : List Nat)
  | tooLarge
  | ioError
deriving DecidableEq, Repr

/-- Result of one `poll_next` call of the framer: an emitted stream item
with the state and the unconsumed read events, `Pending` (the modelled reads
are exhausted), stream termination (EOF or reset/abort), or an out-of-bounds buffer access
of the original code (`get_u32` / slicing / `advance`; never reached from
reachable states). -/
inductive FramerPoll where
  | ready (o : FrameOut) (s : RecvState) (evs : List ReadEv)
  | pending (s : RecvState)
  | eof
  | fault
deriving DecidableEq, Repr

/-- The read branch of `poll_next` (lines 263-291): append the bytes read,
subtract the count from `bytes_to_receive` (saturating), then if a skip is
pending drop up to `bytes_to_skip` bytes off the front of the buffer
(dropping the whole buffer is the `clear()` arm, lines 281-285). -/
def feedChunk (s : RecvState) (c : List Nat) : RecvState :=
  let buf := s.buffer ++ c
  let btr := satSubU s.bytesToReceive c.length
  if s.bytesToSkip > 0 then
    let skipped := min buf.length s.bytesToSkip
    { s with buffer := buf.drop skipped, bytesToReceive := btr,
             bytesToSkip := s.bytesToSkip - skipped }
  else
    { s with buffer := buf, bytesToReceive := btr }

/-- Method `Transport::poll_next` of the framer (lines 223-302), one call: loop
between the parse branch (`bytes_to_receive <= 0`) and the read branch. -/
def framerPollNext (maxSize : Nat) (s : RecvState) (evs : List ReadEv) :
    FramerPoll :=
  if s.bytesToReceive ≤ 0 then
    if s.receivingSize then
      if s.buffer.length < 4 then FramerPoll.fault
      else
        let messageSize := readU32 s.buffer
        let buf := s.buffer.drop 4
        let btr := s.bytesToReceive + messageSize
        if messageSize > maxSize then
          let btr2 := btr + 4
          if btr2 > 0 then
            FramerPoll.ready FrameOut.tooLarge
              { buffer := buf, messageSize := messageSize,
                receivingSize := true, bytesToReceive := btr2,
                bytesToSkip := messageSize } evs
          else
            if buf.length < messageSize then FramerPoll.fault
            else
              FramerPoll.ready FrameOut.tooLarge
                { buffer := buf.drop messageSize, messageSize := messageSize,
                  receivingSize := true, bytesToReceive := btr2,
                  bytesToSkip := s.bytesToSkip } evs
        else
          framerPollNext maxSize
            { buffer := buf, messageSize := messageSize,
              receivingSize := false, bytesToReceive := btr,
              bytesToSkip := s.bytesToSkip } evs
    else
      if s.buffer.length < s.messageSize then FramerPoll.fault
      else
        FramerPoll.ready (FrameOut.message (s.buffer.take s.messageSize))
          { s with buffer := s.buffer.drop s.messageSize,
                   receivingSize := true,
                   bytesToReceive := s.bytesToReceive + 4 } evs
  else
    match evs with
    | [] => FramerPoll.pending s
    | ReadEv.data c :: rest =>
      if c.length = 0 then FramerPoll.eof
      else framerPollNext maxSize (feedChunk s c) rest
    | ReadEv.ioFault fatal :: rest =>
      if fatal then FramerPoll.eof
      else FramerPoll.ready FrameOut.ioError s rest
termination_by (evs.length, if s.receivingSize then 1 else 0)
decreasing_by
  · apply Prod.Lex.right
    simp_all
  · apply Prod.Lex.left
    simp

def evWeight : ReadEv → Nat
  | ReadEv.data c => c.length + 2
  | ReadEv.ioFault _ => 2

/-- Termination measure of the framer driver: buffered bytes plus weighted
pending read events plus one for a half-parsed frame header. -/
def framerMeasure (s : RecvState) (evs : List ReadEv) : Nat :=
  s.buffer.length + (evs.map evWeight).sum + (if s.receivingSize then 0 else 1)

theorem feedChunk_buffer_le (s : RecvState) (c : List Nat) :
    (feedChunk s c).buffer.length ≤ s.buffer.length + c.length := by
  unfold feedChunk
  split
  · simp only [List.length_drop, List.length_append]
    omega
  · simp

theorem feedChunk_receivingSize (s : RecvState) (c : List Nat) :
    (feedChunk s c).receivingSize = s.receivingSize := by
  unfold feedChunk
  split <;> rfl

theorem framerPollNext_ready_measure (maxSize : Nat) :
    ∀ (n : Nat) (s : RecvState) (evs : List ReadEv) (o : FrameOut)
      (s2 : RecvState) (evs2 : List ReadEv),
      2 * evs.length + (if s.receivingSize then 1 else 0) ≤ n →
      framerPollNext maxSize s evs = FramerPoll.ready o s2 evs2 →
      framerMeasure s2 evs2 < framerMeasure s evs := by
  intro n
  induction n using Nat.strong_induction_on with
  | _ n ih =>
    intro s evs o s2 evs2 hn h
    rw [framerPollNext.eq_def] at h
    by_cases h1 : s.bytesToReceive ≤ 0
    · rw [if_pos h1] at h
      by_cases h2 : s.receivingSize = true
      · rw [if_pos h2] at h
        by_cases h3 : s.buffer.length < 4
        · rw [if_pos h3] at h
          cases h
        · rw [if_neg h3] at h
          simp only at h
          by_cases h4 : readU32 s.buffer > maxSize
          · rw [if_pos h4] at h
            by_cases h5 : s.bytesToReceive + (readU32 s.buffer : Int) + 4 > 0
            · rw [if_pos h5] at h
              cases h
              simp only [framerMeasure, h2, List.length_drop]
              omega
            · rw [if_neg h5] at h
              by_cases h6 : (s.buffer.drop 4).length < readU32 s.buffer
              · rw [if_pos h6] at h
                cases h
              · rw [if_neg h6] at h
                cases h
                simp only [framerMeasure, h2, List.length_drop]
                omega
          · rw [if_neg h4] at h
            have hrec := ih (2 * evs.length)
              (by rw [if_pos h2] at hn; omega)
              _ evs o s2 evs2 (by simp) h
            have hmid : framerMeasure
                { buffer := s.buffer.drop 4, messageSize := readU32 s.buffer,
                  receivingSize := false,
                  bytesToReceive := s.bytesToReceive + (readU32 s.buffer : Int),
                  bytesToSkip := s.bytesToSkip } evs < framerMeasure s evs := by
              simp [framerMeasure, h2]
              omega
            exact lt_trans hrec hmid
      · rw [if_neg h2] at h
        by_cases h3 : s.buffer.length < s.messageSize
        · rw [if_pos h3] at h
          cases h
        · rw [if_neg h3] at h
          cases h
          simp only [Bool.not_eq_true] at h2
          simp [framerMeasure, h2]
          omega
    · rw [if_neg h1] at h
      match evs with
      | [] => cases h
      | ReadEv.data c :: rest =>
        simp only at h
        by_cases h2 : c.length = 0
        · rw [if_pos h2] at h
          cases h
        · rw [if_neg h2] at h
          have hrec := ih
            (2 * rest.length + (if (feedChunk s c).receivingSize then 1 else 0))
            (by
              rw [feedChunk_receivingSize]
              simp only [List.length_cons] at hn
              split <;> split at hn <;> omega)
            _ rest o s2 evs2 (le_refl _) h
          have hmid : framerMeasure (feedChunk s c) rest <
              framerMeasure s (ReadEv.data c :: rest) := by
            have hb := feedChunk_buffer_le s c
            have hr := feedChunk_receivingSize s c
            simp only [framerMeasure, List.map_cons, List.sum_cons, evWeight, hr]
            omega
          exact lt_trans hrec hmid
      | ReadEv.ioFault fatal :: rest =>
        simp only at h
        by_cases h2 : fatal = true
        · rw [if_pos h2] at h
          cases h
        · rw [if_neg h2] at h
          cases h
          simp only [framerMeasure, List.map_cons, List.sum_cons, evWeight]
          omega

/-- Final status of a drive of the framer receive stream. -/
inductive RunStatus where
  | drained
  | ended
  | faulted
deriving DecidableEq, Repr

/-- Drive the framer: call `poll_next` repeatedly, collecting the emitted
stream items, until the modelled reads are exhausted (`drained`), the
stream terminates (`ended`), or the original code would abort. -/
def framerRun (maxSize : Nat) (s : RecvState) (evs : List ReadEv) :
    List FrameOut × RecvState × RunStatus :=
  match hp : framerPollNext maxSize s evs with
  | FramerPoll.ready o s2 evs2 =>
    let r := framerRun maxSize s2 evs2
    (o :: r.1, r.2)
  | FramerPoll.pending s2 => ([], s2, RunStatus.drained)
  | FramerPoll.eof => ([], s, RunStatus.ended)
  | FramerPoll.fault => ([], s, RunStatus.faulted)
termination_by framerMeasure s evs
decreasing_by
  exact framerPollNext_ready_measure maxSize
    (2 * evs.length + (if s.receivingSize then 1 else 0))
    s evs o s2 evs2 (le_refl _) hp

def dataBytes : List ReadEv → Nat
  | [] => 0
  | ReadEv.data c :: rest => c.length + dataBytes rest
  | ReadEv.ioFault _ :: rest => dataBytes rest

/-- All bytes delivered by a sequence of read events, in order. -/
def joinEvs : List ReadEv → List Nat
  | [] => []
  | ReadEv.data c :: rest => c ++ joinEvs rest
  | ReadEv.ioFault _ :: rest => joinEvs rest

/-- Read sequences consisting only of successful, non-empty reads (no EOF,
no IO errors): the byte-level view of an incoming stream. -/
def goodChunks (evs : List ReadEv) : Prop :=
  ∀ ev ∈ evs, ∃ c, ev = ReadEv.data c ∧ c ≠ ([] : List Nat)

/-- Data-flow invariant of the framer receive state, at poll boundaries.
While a length header is awaited, `bytes_to_receive` accounts for the
pending skip plus the four header bytes minus what is buffered, and a
fully-buffered position implies no pending skip.  While a payload is
awaited, `bytes_to_receive` is the missing part of the payload, no skip is
pending and the parsed size passed the limit check. -/
def FramerInv (maxSize : Nat) (s : RecvState) : Prop :=
  (s.receivingSize = true →
    s.bytesToReceive = (s.bytesToSkip : Int) + 4 - s.buffer.length ∧
    (s.bytesToReceive ≤ 0 → s.bytesToSkip = 0)) ∧
  (s.receivingSize = false →
    s.bytesToReceive = (s.messageSize : Int) - s.buffer.length ∧
    s.bytesToSkip = 0 ∧ s.messageSize ≤ maxSize ∧ s.messageSize < 2 ^ 32)

/-- The byte stream still to be framed, reconstructed from a receive state
and the bytes yet to be read: pending skip bytes are removed, and a parsed
but unconsumed length header is put back in front. -/
def virtualStream (s : RecvState) (j : List Nat) : List Nat :=
  if s.receivingSize then (s.buffer ++ j).drop s.bytesToSkip
  else u32be s.messageSize ++ s.buffer ++ j

theorem virtualStream_rs (s : RecvState) (j : List Nat)
    (h : s.receivingSize = true) :
    virtualStream s j = (s.buffer ++ j).drop s.bytesToSkip := by
  simp [virtualStream, h]

theorem virtualStream_not_rs (s : RecvState) (j : List Nat)
    (h : s.receivingSize = false) :
    virtualStream s j = u32be s.messageSize ++ s.buffer ++ j := by
  simp [virtualStream, h]

/-- The state at a frame boundary: empty buffer, waiting for the next
4-byte length header (`msize` is the scratch value left in
`message_size`). -/
def cleanState (msize : Nat) : RecvState :=
  { buffer := [], messageSize := msize, receivingSize := true,
    bytesToReceive := 4, bytesToSkip := 0 }

/-- Declarative framing of a complete byte stream (the wire format of
section 6 of the spec): a sequence of frames, each a big-endian 32-bit
length followed by exactly that many payload bytes; oversize frames yield
`MessageTooLarge`, others the payload slice. -/
inductive Frames (maxSize : Nat) : List Nat → List FrameOut → Prop where
  | nil : Frames maxSize [] []
  | oversize (L : Nat) (body rest : List Nat) (outs : List FrameOut)
      (hL : L < 2 ^ 32) (hbig : maxSize < L) (hlen : body.length = L)
      (hrest : Frames maxSize rest outs) :
      Frames maxSize (u32be L ++ body ++ rest) (FrameOut.tooLarge :: outs)
  | ok (L : Nat) (body rest : List Nat) (outs : List FrameOut)
      (hL : L < 2 ^ 32) (hfit : L ≤ maxSize) (hlen : body.length = L)
      (hrest : Frames maxSize rest outs) :
      Frames maxSize (u32be L ++ body ++ rest) (FrameOut.message body :: outs)

theorem u32be_length (L : Nat) : (u32be L).length = 4 := rfl

theorem readU32_u32be_append (L : Nat) (x : List Nat) (hL : L < 2 ^ 32) :
    readU32 (u32be L ++ x) = L := by
  simp only [u32be, List.cons_append, List.nil_append, readU32]
  omega

theorem u32be_append_inj {L1 L2 : Nat} {x y : List Nat}
    (h1 : L1 < 2 ^ 32) (h2 : L2 < 2 ^ 32)
    (h : u32be L1 ++ x = u32be L2 ++ y) : L1 = L2 ∧ x = y := by
  have hL : L1 = L2 := by
    have e1 := readU32_u32be_append L1 x h1
    have e2 := readU32_u32be_append L2 y h2
    rw [← e1, ← e2, h]
  subst hL
  exact ⟨rfl, List.append_cancel_left h⟩

theorem Frames_nil_inv {maxSize : Nat} {V : List Nat}
    (h : Frames maxSize V []) : V = [] := by
  cases h
  rfl

theorem Frames_cons_inv {maxSize : Nat} {V : List Nat} {o : FrameOut}
    {outs : List FrameOut} (h : Frames maxSize V (o :: outs)) :
    ∃ L body rest, V = u32be L ++ body ++ rest ∧ L < 2 ^ 32 ∧
      body.length = L ∧ Frames maxSize rest outs ∧
      ((maxSize < L ∧ o = FrameOut.tooLarge) ∨
       (L ≤ maxSize ∧ o = FrameOut.message body)) := by
  cases h with
  | oversize L body rest outs hL hbig hlen hrest =>
    exact ⟨L, body, rest, rfl, hL, hlen, hrest, Or.inl ⟨hbig, rfl⟩⟩
  | ok L body rest outs hL hfit hlen hrest =>
    exact ⟨L, body, rest, rfl, hL, hlen, hrest, Or.inr ⟨hfit, rfl⟩⟩

theorem satSubU_eq_sub {a : Int} {b : Nat} (h : -(2 ^ 63) ≤ a - b) :
    satSubU a b = a - b :=
  max_eq_left h

/-- Feeding a chunk preserves the invariant and leaves the virtual stream
unchanged (the chunk bytes move from the future into the buffer, and
pending skips are applied to them). -/
theorem feed_preserves (maxSize : Nat) (s : RecvState) (c : List Nat)
    (j : List Nat) (hInv : FramerInv maxSize s)
    (hbytes : (s.buffer.length : Int) + c.length ≤ 2 ^ 63) :
    FramerInv maxSize (feedChunk s c) ∧
    virtualStream (feedChunk s c) j = virtualStream s (c ++ j) := by
  obtain ⟨hrs, hnrs⟩ := hInv
  by_cases h2 : s.receivingSize = true
  · obtain ⟨hbtr, hzero⟩ := hrs h2
    have hsat : satSubU s.bytesToReceive c.length =
        s.bytesToReceive - c.length := by
      apply satSubU_eq_sub
      rw [hbtr]
      push_cast
      omega
    by_cases hskip : s.bytesToSkip > 0
    · have hfeed : feedChunk s c =
          { s with
            buffer := (s.buffer ++ c).drop
              (min (s.buffer ++ c).length s.bytesToSkip),
            bytesToReceive := s.bytesToReceive - c.length,
            bytesToSkip := s.bytesToSkip -
              min (s.buffer ++ c).length s.bytesToSkip } := by
        unfold feedChunk
        rw [if_pos hskip, hsat]
      rw [hfeed]
      constructor
      · constructor
        · intro _
          constructor
          · simp only [List.length_drop, List.length_append]
            rw [hbtr]
            push_cast
            have := Nat.min_le_left (s.buffer ++ c).length s.bytesToSkip
            have := Nat.min_le_right (s.buffer ++ c).length s.bytesToSkip
            simp only [List.length_append] at *
            omega
          · intro hle
            rw [hbtr] at hle
            push_cast at hle
            have h4 : s.buffer.length + c.length ≥ s.bytesToSkip + 4 := by
              omega
            simp only [List.length_append]
            omega
        · intro hfalse
          simp only [h2] at hfalse
          cases hfalse
      · rw [virtualStream_rs _ _ (by simpa using h2),
          virtualStream_rs s _ h2]
        simp only
        have hmin : min (s.buffer ++ c).length s.bytesToSkip ≤
            (s.buffer ++ c).length := Nat.min_le_left _ _
        rw [← List.drop_append_of_le_length hmin, List.drop_drop]
        have hsum : min (s.buffer ++ c).length s.bytesToSkip +
            (s.bytesToSkip - min (s.buffer ++ c).length s.bytesToSkip) =
            s.bytesToSkip := by
          have := Nat.min_le_right (s.buffer ++ c).length s.bytesToSkip
          omega
        rw [hsum, List.append_assoc]
    · have hfeed : feedChunk s c =
          { s with buffer := s.buffer ++ c,
                   bytesToReceive := s.bytesToReceive - c.length } := by
        unfold feedChunk
        rw [if_neg hskip, hsat]
      have hskip0 : s.bytesToSkip = 0 := by omega
      rw [hfeed]
      constructor
      · constructor
        · intro _
          constructor
          · simp only [List.length_append]
            rw [hbtr, hskip0]
            push_cast
            omega
          · intro _
            exact hskip0
        · intro hfalse
          simp only [h2] at hfalse
          cases hfalse
      · rw [virtualStream_rs _ _ (by simpa using h2),
          virtualStream_rs s _ h2]
        simp only [hskip0, List.drop_zero, List.append_assoc]
  · have h2f : s.receivingSize = false := by
      cases hb : s.receivingSize
      · rfl
      · exact absurd hb h2
    obtain ⟨hbtr, hskip0, hfit, hlt⟩ := hnrs h2f
    have hsat : satSubU s.bytesToReceive c.length =
        s.bytesToReceive - c.length := by
      apply satSubU_eq_sub
      rw [hbtr]
      push_cast
      omega
    have hfeed : feedChunk s c =
        { s with buffer := s.buffer ++ c,
                 bytesToReceive := s.bytesToReceive - c.length } := by
      unfold feedChunk
      rw [if_neg (by omega), hsat]
    rw [hfeed]
    refine ⟨⟨fun hfalse => ?_, fun _ => ?_⟩, ?_⟩
    · simp only [h2f] at hfalse
      cases hfalse
    · refine ⟨?_, hskip0, hfit, hlt⟩
      simp only [List.length_append]
      rw [hbtr]
      push_cast
      omega
    · rw [virtualStream_not_rs _ _ (by simpa using h2f),
        virtualStream_not_rs s _ h2f]
      simp only [List.append_assoc]

theorem receivingSize_false_of_not_true {s : RecvState}
    (h : ¬ s.receivingSize = true) : s.receivingSize = false := by
  cases hb : s.receivingSize
  · rfl
  · exact absurd hb h

/-- When the virtual stream is exhausted, `poll_next` consumes all remaining
reads (applying pending skips) and returns `Pending`; with no reads left the
state is untouched. -/
theorem pollNext_drained (maxSize : Nat) (evs : List ReadEv) :
    ∀ (s : RecvState),
      FramerInv maxSize s → goodChunks evs →
      (s.buffer.length : Int) + dataBytes evs ≤ 2 ^ 63 →
      virtualStream s (joinEvs evs) = [] →
      ∃ sF, framerPollNext maxSize s evs = FramerPoll.pending sF ∧
        (evs = [] → sF = s) := by
  induction evs with
  | nil =>
    intro s hInv hgood hbytes hV
    refine ⟨s, ?_, fun _ => rfl⟩
    have hrs : s.receivingSize = true := by
      by_contra hc
      rw [virtualStream_not_rs s _ (receivingSize_false_of_not_true hc)] at hV
      simp [u32be] at hV
    obtain ⟨hbtr, _⟩ := hInv.1 hrs
    rw [virtualStream_rs s _ hrs] at hV
    have hlen : s.buffer.length ≤ s.bytesToSkip := by
      have hl := congrArg List.length hV
      simp only [List.length_drop, List.length_append, List.append_nil,
        List.length_nil] at hl
      simp only [joinEvs, List.append_nil] at hl
      omega
    have hpos : ¬ s.bytesToReceive ≤ 0 := by
      rw [hbtr]
      push_cast
      omega
    rw [framerPollNext.eq_def, if_neg hpos]
  | cons ev rest ih =>
    intro s hInv hgood hbytes hV
    obtain ⟨c, rfl, hc⟩ := hgood ev (List.mem_cons_self _ _)
    have hjoin : joinEvs (ReadEv.data c :: rest) = c ++ joinEvs rest := rfl
    have hrs : s.receivingSize = true := by
      by_contra hcontra
      rw [virtualStream_not_rs s _ (receivingSize_false_of_not_true hcontra)]
        at hV
      simp [u32be] at hV
    obtain ⟨hbtr, _⟩ := hInv.1 hrs
    rw [virtualStream_rs s _ hrs, hjoin] at hV
    have hlen : s.buffer.length ≤ s.bytesToSkip := by
      have hl := congrArg List.length hV
      simp only [List.length_drop, List.length_append, List.length_nil] at hl
      omega
    have hpos : ¬ s.bytesToReceive ≤ 0 := by
      rw [hbtr]
      push_cast
      omega
    have hdb : (c.length : Int) ≤ dataBytes (ReadEv.data c :: rest) := by
      simp only [dataBytes]
      push_cast
      have : (0:Int) ≤ dataBytes rest := by positivity
      omega
    obtain ⟨hInv2, hVeq⟩ := feed_preserves maxSize s c (joinEvs rest) hInv
      (by simp only [dataBytes] at hbytes; push_cast at hbytes ⊢; omega)
    have hgood2 : goodChunks rest := fun e he =>
      hgood e (List.mem_cons_of_mem _ he)
    have hbytes2 : ((feedChunk s c).buffer.length : Int) + dataBytes rest
        ≤ 2 ^ 63 := by
      have hb := feedChunk_buffer_le s c
      simp only [dataBytes] at hbytes
      push_cast at hbytes ⊢
      omega
    have hV2 : virtualStream (feedChunk s c) (joinEvs rest) = [] := by
      rw [hVeq]
      rw [virtualStream_rs s _ hrs]
      exact hV
    obtain ⟨sF, hpoll, _⟩ := ih (feedChunk s c) hInv2 hgood2 hbytes2 hV2
    refine ⟨sF, ?_, fun habs => absurd habs (by simp)⟩
    rw [framerPollNext.eq_def, if_neg hpos]
    simp only
    rw [if_neg (by simpa using hc)]
    exact hpoll

/-- One emitting `poll_next` step refines the declarative framing: from any
invariant state whose virtual stream frames into `o :: outs`, `poll_next`
emits exactly `o` and re-establishes the invariant with the virtual stream
framing into `outs`.  An emitted message additionally leaves the state at a
frame boundary with the message length recorded. -/
theorem pollNext_step (maxSize : Nat) :
    ∀ (n : Nat) (s : RecvState) (evs : List ReadEv) (o : FrameOut)
      (outs : List FrameOut),
      2 * evs.length + (if s.receivingSize then 1 else 0) ≤ n →
      FramerInv maxSize s → goodChunks evs →
      (s.buffer.length : Int) + dataBytes evs ≤ 2 ^ 63 →
      Frames maxSize (virtualStream s (joinEvs evs)) (o :: outs) →
      ∃ s2 evs2, framerPollNext maxSize s evs = FramerPoll.ready o s2 evs2 ∧
        FramerInv maxSize s2 ∧ goodChunks evs2 ∧
        ((s2.buffer.length : Int) + dataBytes evs2 ≤ 2 ^ 63) ∧
        Frames maxSize (virtualStream s2 (joinEvs evs2)) outs ∧
        (∀ body, o = FrameOut.message body →
          s2.receivingSize = true ∧ s2.bytesToSkip = 0 ∧
          s2.messageSize = body.length) := by
  intro n
  induction n using Nat.strong_induction_on with
  | _ n ih =>
    intro s evs o outs hn hInv hgood hbytes hF
    by_cases hb0 : s.bytesToReceive ≤ 0
    · by_cases hrs : s.receivingSize = true
      · -- parse a length header
        obtain ⟨hbtr, hzero⟩ := hInv.1 hrs
        have hskip0 : s.bytesToSkip = 0 := hzero hb0
        rw [hskip0] at hbtr
        have h4 : 4 ≤ s.buffer.length := by
          rw [hbtr] at hb0
          push_cast at hb0
          omega
        have hVeq : virtualStream s (joinEvs evs) =
            s.buffer ++ joinEvs evs := by
          rw [virtualStream_rs s _ hrs, hskip0, List.drop_zero]
        rw [hVeq] at hF
        obtain ⟨L, body, rest, hVd, hL32, hblen, hFrest, hcase⟩ :=
          Frames_cons_inv hF
        have htake : s.buffer.take 4 = u32be L := by
          have h1 : (s.buffer ++ joinEvs evs).take 4 = s.buffer.take 4 :=
            List.take_append_of_le_length h4
          have h2 : (u32be L ++ (body ++ rest)).take 4 = u32be L := by
            rw [show (4:Nat) = (u32be L).length from rfl, List.take_left]
          rw [← h1, hVd, List.append_assoc, h2]
        have hread : readU32 s.buffer = L := by
          have hsplit : s.buffer = u32be L ++ s.buffer.drop 4 := by
            conv_lhs => rw [← List.take_append_drop 4 s.buffer]
            rw [htake]
          rw [hsplit]
          exact readU32_u32be_append L _ hL32
        have htail : s.buffer.drop 4 ++ joinEvs evs = body ++ rest := by
          have h1 : (s.buffer ++ joinEvs evs).drop 4 =
              s.buffer.drop 4 ++ joinEvs evs :=
            List.drop_append_of_le_length h4
          have h2 : (u32be L ++ (body ++ rest)).drop 4 = body ++ rest := by
            rw [show (4:Nat) = (u32be L).length from rfl, List.drop_left]
          rw [← h1, hVd, List.append_assoc, h2]
        have hlen4 : ¬ s.buffer.length < 4 := by omega
        rcases hcase with ⟨hbig, rfl⟩ | ⟨hfit, rfl⟩
        · -- oversize frame: emit MessageTooLarge
          have hbigL : readU32 s.buffer > maxSize := by rw [hread]; exact hbig
          by_cases hpos2 : s.bytesToReceive + (readU32 s.buffer : Int) + 4 > 0
          · -- not all payload buffered: record bytes_to_skip
            refine ⟨{ buffer := s.buffer.drop 4, messageSize := readU32 s.buffer,
                      receivingSize := true,
                      bytesToReceive := s.bytesToReceive + (readU32 s.buffer : Int) + 4,
                      bytesToSkip := readU32 s.buffer }, evs, ?_, ?_, hgood, ?_, ?_, ?_⟩
            · rw [framerPollNext.eq_def, if_pos hb0, if_pos hrs, if_neg hlen4]
              simp only
              rw [if_pos hbigL, if_pos hpos2]
            · constructor
              · intro _
                dsimp only
                constructor
                · simp only [List.length_drop, hread, hbtr]
                  push_cast
                  omega
                · intro hc
                  rw [hread] at hpos2 ⊢
                  exact absurd hc (by omega)
              · intro hfalse
                simp at hfalse
            · dsimp only
              simp only [List.length_drop]
              push_cast at hbytes ⊢
              omega
            · rw [virtualStream_rs _ _ rfl]
              dsimp only
              simp only [hread]
              rw [htail, ← hblen, List.drop_left]
              exact hFrest
            · intro body habs
              cases habs
          · -- payload (and next header) already buffered: advance immediately
            have hblarge : ¬ (s.buffer.drop 4).length < readU32 s.buffer := by
              simp only [List.length_drop, hread]
              rw [hbtr, hread] at hpos2
              push_cast at hpos2
              omega
            refine ⟨{ buffer := (s.buffer.drop 4).drop (readU32 s.buffer),
                      messageSize := readU32 s.buffer,
                      receivingSize := true,
                      bytesToReceive := s.bytesToReceive + (readU32 s.buffer : Int) + 4,
                      bytesToSkip := s.bytesToSkip }, evs, ?_, ?_, hgood, ?_, ?_, ?_⟩
            · rw [framerPollNext.eq_def, if_pos hb0, if_pos hrs, if_neg hlen4]
              simp only
              rw [if_pos hbigL, if_neg hpos2, if_neg hblarge]
            · constructor
              · intro _
                dsimp only
                constructor
                · simp only [List.length_drop, hread, hbtr, hskip0]
                  rw [hbtr, hread] at hpos2
                  push_cast at hpos2 ⊢
                  omega
                · intro _
                  exact hskip0
              · intro hfalse
                simp at hfalse
            · dsimp only
              simp only [List.length_drop]
              push_cast at hbytes ⊢
              omega
            · rw [virtualStream_rs _ _ rfl]
              dsimp only
              simp only [hread, hskip0, List.drop_zero]
              have hdl : (s.buffer.drop 4).length ≥ L := by
                simpa [hread] using hblarge
              rw [← List.drop_append_of_le_length hdl, htail, ← hblen,
                List.drop_left]
              exact hFrest
            · intro body habs
              cases habs
        · -- frame within the limit: finish the header, then emit the payload
          have hnotbig : ¬ readU32 s.buffer > maxSize := by
            rw [hread]
            omega
          have hpoll : framerPollNext maxSize s evs =
              framerPollNext maxSize
                { buffer := s.buffer.drop 4, messageSize := readU32 s.buffer,
                  receivingSize := false,
                  bytesToReceive := s.bytesToReceive + (readU32 s.buffer : Int),
                  bytesToSkip := s.bytesToSkip } evs := by
            rw [framerPollNext.eq_def, if_pos hb0, if_pos hrs, if_neg hlen4]
            simp only
            rw [if_neg hnotbig]
          have hInv2 : FramerInv maxSize
              { buffer := s.buffer.drop 4, messageSize := readU32 s.buffer,
                receivingSize := false,
                bytesToReceive := s.bytesToReceive + (readU32 s.buffer : Int),
                bytesToSkip := s.bytesToSkip } := by
            constructor
            · intro hfalse
              simp at hfalse
            · intro _
              refine ⟨?_, hskip0, by rw [hread]; exact hfit, by rw [hread]; exact hL32⟩
              dsimp only
              simp only [List.length_drop, hread, hbtr]
              push_cast
              omega
          have hF2 : Frames maxSize
              (virtualStream
                { buffer := s.buffer.drop 4, messageSize := readU32 s.buffer,
                  receivingSize := false,
                  bytesToReceive := s.bytesToReceive + (readU32 s.buffer : Int),
                  bytesToSkip := s.bytesToSkip } (joinEvs evs))
              (FrameOut.message body :: outs) := by
            rw [virtualStream_not_rs _ _ rfl]
            simp only [hread]
            rw [List.append_assoc, htail, ← List.append_assoc, ← hVd]
            exact hF
          have hbytes2 : (((s.buffer.drop 4).length : Int) + dataBytes evs
              ≤ 2 ^ 63) := by
            simp only [List.length_drop]
            push_cast at hbytes ⊢
            omega
          obtain ⟨s2, evs2, hpoll2, hp2, hp3, hp4, hp5, hp6⟩ :=
            ih (2 * evs.length)
              (by rw [if_pos hrs] at hn; omega)
              _ evs (FrameOut.message body) outs (by simp) hInv2 hgood
              hbytes2 hF2
          exact ⟨s2, evs2, by rw [hpoll]; exact hpoll2, hp2, hp3, hp4, hp5, hp6⟩
      · -- emit a buffered payload
        have hrsf : s.receivingSize = false := receivingSize_false_of_not_true hrs
        obtain ⟨hbtr, hskip0, hfit, hsize32⟩ := hInv.2 hrsf
        have hlenm : s.messageSize ≤ s.buffer.length := by
          rw [hbtr] at hb0
          push_cast at hb0
          omega
        have hVeq : virtualStream s (joinEvs evs) =
            u32be s.messageSize ++ s.buffer ++ joinEvs evs :=
          virtualStream_not_rs s _ hrsf
        rw [hVeq] at hF
        obtain ⟨L, body, rest, hVd, hL32, hblen, hFrest, hcase⟩ :=
          Frames_cons_inv hF
        rw [List.append_assoc, List.append_assoc] at hVd
        obtain ⟨hLm, htail⟩ := u32be_append_inj hsize32 hL32 hVd
        rcases hcase with ⟨hbig, habs⟩ | ⟨hfit2, rfl⟩
        · omega
        · have hbody : s.buffer.take s.messageSize = body := by
            have h1 : (s.buffer ++ joinEvs evs).take s.messageSize =
                s.buffer.take s.messageSize :=
              List.take_append_of_le_length hlenm
            have h2 : (body ++ rest).take s.messageSize = body := by
              rw [show s.messageSize = body.length from by omega, List.take_left]
            rw [← h1, htail, h2]
          have htail2 : s.buffer.drop s.messageSize ++ joinEvs evs = rest := by
            have h1 : (s.buffer ++ joinEvs evs).drop s.messageSize =
                s.buffer.drop s.messageSize ++ joinEvs evs :=
              List.drop_append_of_le_length hlenm
            have h2 : (body ++ rest).drop s.messageSize = rest := by
              rw [show s.messageSize = body.length from by omega, List.drop_left]
            rw [← h1, htail, h2]
          have hguard : ¬ s.buffer.length < s.messageSize := by omega
          refine ⟨⟨s.buffer.drop s.messageSize, s.messageSize, true,
            s.bytesToReceive + 4, s.bytesToSkip⟩, evs,
            ?_, ?_, hgood, ?_, ?_, ?_⟩
          · rw [framerPollNext.eq_def, if_pos hb0, if_neg hrs, if_neg hguard,
              hbody]
          · constructor
            · intro _
              dsimp only
              constructor
              · simp only [List.length_drop, hbtr, hskip0]
                push_cast
                omega
              · intro _
                exact hskip0
            · intro hfalse
              simp at hfalse
          · dsimp only
            simp only [List.length_drop]
            push_cast at hbytes ⊢
            omega
          · rw [virtualStream_rs _ _ rfl]
            dsimp only
            simp only [hskip0, List.drop_zero]
            rw [htail2]
            exact hFrest
          · intro body2 heq
            have hb2 : body = body2 := by
              cases heq
              rfl
            refine ⟨rfl, hskip0, ?_⟩
            dsimp only
            rw [← hb2]
            omega
    · -- need more bytes: feed the next read
      match evs with
      | [] =>
        exfalso
        by_cases hrs : s.receivingSize = true
        · obtain ⟨hbtr, _⟩ := hInv.1 hrs
          rw [virtualStream_rs s _ hrs] at hF
          obtain ⟨L, body, rest, hVd, _, hblen, _, _⟩ := Frames_cons_inv hF
          have hlv := congrArg List.length hVd
          simp only [List.length_drop, List.length_append, joinEvs,
            List.length_nil, u32be_length] at hlv
          rw [hbtr] at hb0
          push_cast at hb0
          omega
        · have hrsf : s.receivingSize = false :=
            receivingSize_false_of_not_true hrs
          obtain ⟨hbtr, _, _, hsize32⟩ := hInv.2 hrsf
          rw [virtualStream_not_rs s _ hrsf] at hF
          obtain ⟨L, body, rest, hVd, hL32, hblen, _, _⟩ := Frames_cons_inv hF
          rw [List.append_assoc, List.append_assoc] at hVd
          obtain ⟨hLm, htail⟩ := u32be_append_inj hsize32 hL32 hVd
          have hlv := congrArg List.length htail
          simp only [List.length_append, joinEvs, List.length_nil] at hlv
          rw [hbtr] at hb0
          push_cast at hb0
          omega
      | ReadEv.data c :: rest =>
        have hcne : c ≠ ([] : List Nat) := by
          obtain ⟨c2, hc2, hcne2⟩ := hgood _ (List.mem_cons_self _ _)
          cases hc2
          exact hcne2
        have hjoin : joinEvs (ReadEv.data c :: rest) = c ++ joinEvs rest := rfl
        obtain ⟨hInv2, hVeq⟩ := feed_preserves maxSize s c (joinEvs rest) hInv
          (by simp only [dataBytes] at hbytes; push_cast at hbytes ⊢; omega)
        have hgood2 : goodChunks rest := fun e he =>
          hgood e (List.mem_cons_of_mem _ he)
        have hbytes2 : ((feedChunk s c).buffer.length : Int) + dataBytes rest
            ≤ 2 ^ 63 := by
          have hb := feedChunk_buffer_le s c
          simp only [dataBytes] at hbytes
          push_cast at hbytes ⊢
          omega
        have hF2 : Frames maxSize
            (virtualStream (feedChunk s c) (joinEvs rest)) (o :: outs) := by
          rw [hVeq, ← hjoin]
          exact hF
        obtain ⟨s2, evs2, hpoll2, hp2, hp3, hp4, hp5, hp6⟩ :=
          ih (2 * rest.length + (if (feedChunk s c).receivingSize then 1 else 0))
            (by
              rw [feedChunk_receivingSize]
              simp only [List.length_cons] at hn
              split at hn <;> split <;> omega)
            _ rest o outs (le_refl _) hInv2 hgood2 hbytes2 hF2
        refine ⟨s2, evs2, ?_, hp2, hp3, hp4, hp5, hp6⟩
        rw [framerPollNext.eq_def, if_neg hb0]
        simp only
        rw [if_neg (by simpa using hcne)]
        exact hpoll2
      | ReadEv.ioFault fatal :: rest =>
        exfalso
        obtain ⟨c2, hc2, _⟩ := hgood _ (List.mem_cons_self _ _)
        cases hc2

theorem goodChunks_join_nil {evs : List ReadEv} (hgood : goodChunks evs)
    (hj : joinEvs evs = []) : evs = [] := by
  match evs with
  | [] => rfl
  | ev :: rest =>
    obtain ⟨c, rfl, hcne⟩ := hgood ev (List.mem_cons_self _ _)
    simp only [joinEvs] at hj
    exact absurd (List.append_eq_nil.mp hj).1 hcne

/-- The framer receive loop refines the declarative framing: from an
invariant state whose virtual stream frames into `outs`, driving the framer
over the remaining reads emits exactly `outs` and consumes all reads.  If
the last emitted item is a decoded message, the final state is the clean
frame boundary. -/
theorem framerRun_refines (maxSize : Nat) :
    ∀ (N : Nat) (s : RecvState) (evs : List ReadEv) (outs : List FrameOut),
      framerMeasure s evs ≤ N →
      FramerInv maxSize s → goodChunks evs →
      (s.buffer.length : Int) + dataBytes evs ≤ 2 ^ 63 →
      Frames maxSize (virtualStream s (joinEvs evs)) outs →
      ∃ sF, framerRun maxSize s evs = (outs, sF, RunStatus.drained) ∧
        (outs = [] → evs = [] → sF = s) ∧
        (∀ body, outs.getLast? = some (FrameOut.message body) →
          sF = cleanState body.length) := by
  intro N
  induction N using Nat.strong_induction_on with
  | _ N ihN =>
    intro s evs outs hN hInv hgood hbytes hF
    match outs with
    | [] =>
      have hV : virtualStream s (joinEvs evs) = [] := Frames_nil_inv hF
      obtain ⟨sF, hpend, hid⟩ := pollNext_drained maxSize evs s hInv hgood
        hbytes hV
      refine ⟨sF, ?_, fun _ he => hid he, ?_⟩
      · rw [framerRun.eq_def]
        split
        · next o2 s2 evs2 heq =>
            rw [hpend] at heq
            cases heq
        · next s2 heq =>
            rw [hpend] at heq
            cases heq
            rfl
        · next heq =>
            rw [hpend] at heq
            cases heq
        · next heq =>
            rw [hpend] at heq
            cases heq
      · intro body habs
        simp at habs
    | o :: outs2 =>
      obtain ⟨s2, evs2, hpoll, hInv2, hgood2, hbytes2, hF2, hmsg⟩ :=
        pollNext_step maxSize
          (2 * evs.length + (if s.receivingSize then 1 else 0))
          s evs o outs2 (le_refl _) hInv hgood hbytes hF
      have hmlt : framerMeasure s2 evs2 < framerMeasure s evs :=
        framerPollNext_ready_measure maxSize
          (2 * evs.length + (if s.receivingSize then 1 else 0))
          s evs o s2 evs2 (le_refl _) hpoll
      obtain ⟨sF, hrun2, hempty2, hlast2⟩ :=
        ihN (framerMeasure s2 evs2) (by omega) s2 evs2 outs2 (le_refl _)
          hInv2 hgood2 hbytes2 hF2
      refine ⟨sF, ?_, ?_, ?_⟩
      · rw [framerRun.eq_def]
        split
        · next o2 s2b evs2b heq =>
            rw [hpoll] at heq
            cases heq
            simp only [hrun2]
        · next s2b heq =>
            rw [hpoll] at heq
            cases heq
        · next heq =>
            rw [hpoll] at heq
            cases heq
        · next heq =>
            rw [hpoll] at heq
            cases heq
      · intro habs
        cases habs
      · intro body hlastEq
        match outs2, hrun2, hempty2, hlast2, hF2 with
        | [], hrun2, hempty2, hlast2, hF2 =>
          have hbodyEq : o = FrameOut.message body := by
            simpa using hlastEq
          obtain ⟨hrs2, hskip2, hms2⟩ := hmsg body hbodyEq
          have hV2 : virtualStream s2 (joinEvs evs2) = [] :=
            Frames_nil_inv hF2
          rw [virtualStream_rs s2 _ hrs2, hskip2, List.drop_zero] at hV2
          obtain ⟨hbuf2, hjoin2⟩ := List.append_eq_nil.mp hV2
          have hevs2 : evs2 = [] := goodChunks_join_nil hgood2 hjoin2
          have hsF : sF = s2 := hempty2 rfl hevs2
          obtain ⟨hbtr2, _⟩ := hInv2.1 hrs2
          rw [hskip2, hbuf2] at hbtr2
          simp only [List.length_nil] at hbtr2
          rw [hsF]
          obtain ⟨b2, m2, r2, t2, k2⟩ := s2
          simp only at hrs2 hskip2 hms2 hbuf2 hbtr2
          subst hrs2 hskip2 hms2 hbuf2
          have ht : t2 = 4 := by push_cast at hbtr2; omega
          subst ht
          rfl
        | o2 :: rest2, hrun2, hempty2, hlast2, hF2 =>
          apply hlast2
          simpa using hlastEq

theorem joinEvs_map_data (chunks : List (List Nat)) :
    joinEvs (chunks.map ReadEv.data) = chunks.join := by
  induction chunks with
  | nil => rfl
  | cons c rest ih => simp [joinEvs, ih]

theorem dataBytes_map_data (chunks : List (List Nat)) :
    dataBytes (chunks.map ReadEv.data) = chunks.join.length := by
  induction chunks with
  | nil => rfl
  | cons c rest ih => simp [dataBytes, ih]

/-- C1: oversize-frame recovery of the framer receive state machine.  For
every byte stream that delivers an oversize frame followed by a well-formed
frame, arbitrarily fragmented into non-empty reads, the framer emits exactly
`MessageTooLarge` followed by the decoded payload of the good frame, and
finishes at the next length-prefix boundary (clean state: empty buffer,
`receiving_size` set, `bytes_to_receive = 4`, no pending skip).  The
fragmentation decides which recovery path runs (immediate buffer advance
when the payload is fully buffered, or `bytes_to_skip` drained across later
reads); the result is the same for all fragmentations.  The byte-count
hypotheses reflect `u32` frame lengths; they make the `i64` saturation in
the read accounting unreachable. -/
theorem framer_oversize_resync (maxSize : Nat) (payload good : List Nat)
    (chunks : List (List Nat))
    (hbig : maxSize < payload.length) (hp32 : payload.length < 2 ^ 32)
    (hfit : good.length ≤ maxSize) (hg32 : good.length < 2 ^ 32)
    (hne : ∀ c ∈ chunks, c ≠ ([] : List Nat))
    (hjoin : chunks.join = u32be payload.length ++ payload ++
      (u32be good.length ++ good)) :
    framerRun maxSize RecvState.init (chunks.map ReadEv.data) =
      ([FrameOut.tooLarge, FrameOut.message good],
       cleanState good.length, RunStatus.drained) := by
  have hgood : goodChunks (chunks.map ReadEv.data) := by
    intro ev hev
    obtain ⟨c, hc, rfl⟩ := List.mem_map.mp hev
    exact ⟨c, rfl, hne c hc⟩
  have hInv : FramerInv maxSize RecvState.init := by
    constructor
    · intro _
      exact ⟨by simp [RecvState.init], by simp [RecvState.init]⟩
    · intro habs
      simp [RecvState.init] at habs
  have hjlen : chunks.join.length =
      4 + payload.length + (4 + good.length) := by
    rw [hjoin]
    simp [u32be_length]
    omega
  have hbytes : ((RecvState.init.buffer.length : Int) +
      dataBytes (chunks.map ReadEv.data) ≤ 2 ^ 63) := by
    rw [dataBytes_map_data, hjlen]
    simp only [RecvState.init, List.length_nil]
    push_cast
    omega
  have hFgood : Frames maxSize (u32be good.length ++ good)
      [FrameOut.message good] := by
    have h : Frames maxSize (u32be good.length ++ good ++ [])
        [FrameOut.message good] :=
      Frames.ok good.length good [] [] hg32 hfit rfl Frames.nil
    simpa using h
  have hF : Frames maxSize
      (virtualStream RecvState.init (joinEvs (chunks.map ReadEv.data)))
      [FrameOut.tooLarge, FrameOut.message good] := by
    rw [virtualStream_rs RecvState.init _ rfl]
    simp only [RecvState.init, List.nil_append, List.drop_zero,
      joinEvs_map_data, hjoin]
    exact Frames.oversize payload.length payload (u32be good.length ++ good)
      _ hp32 hbig rfl hFgood
  obtain ⟨sF, hrun, _, hlast⟩ := framerRun_refines maxSize
    (framerMeasure RecvState.init (chunks.map ReadEv.data))
    RecvState.init (chunks.map ReadEv.data)
    [FrameOut.tooLarge, FrameOut.message good]
    (le_refl _) hInv hgood hbytes hF
  have hsF : sF = cleanState good.length := hlast good (by simp)
  rw [hsF] at hrun
  exact hrun

/-- Witness for C1: limit 1, an oversize 2-byte frame then a valid 1-byte
frame, fragmented so that the oversize payload is not fully buffered when
its header is parsed (the `bytes_to_skip` path runs and is drained across
later reads). -/
theorem framer_oversize_resync_witness :
    framerRun 1 RecvState.init
        ([[0], [0, 0, 2, 7], [8, 0, 0], [0, 1, 9]].map ReadEv.data) =
      ([FrameOut.tooLarge, FrameOut.message [9]],
       cleanState 1, RunStatus.drained) :=
  framer_oversize_resync 1 [7, 8] [9] [[0], [0, 0, 2, 7], [8, 0, 0], [0, 1, 9]]
    (by decide) (by decide) (by decide) (by decide) (by decide) (by decide)

end Mezzenger
